import Mathlib

/-!
Verification development for the `ascii-filter` repository (src/lib.rs).

The source is shallowly embedded: bytes are `Nat` (each meant to be < 256),
buffers are `List Nat`, the mutable `cost` / `backtrack` / `valid_utf8`
vectors of `take_from_buffer` are modelled as functions `Nat → _` updated
iteration by iteration, and the byte source of `fill_buf` / `buffer_filter`
is a deterministic state machine (`Source`) whose `read` returns a chunk of
its remaining data, with an optional schedule of chunk sizes so that all
read-chunking behaviours of a `std::io::Read` implementation are covered.
All definitions are structural recursions so that concrete runs can be
evaluated by `decide`.
-/

set_option maxRecDepth 10000

namespace AsciiFilter

/-- `usize::MAX` on the 64-bit targets the crate runs on; `min_cost_i` is
initialised to this value in `take_from_buffer`. -/
def USIZE_MAX : Nat := 2 ^ 64 - 1

/-- A UTF-8 continuation byte (`0x80..=0xBF`). -/
def contB (b : Nat) : Bool := decide (0x80 ≤ b ∧ b < 0xC0)

/-- Admissible second byte of a three-byte character led by `b` (the
`E0 → A0..BF`, `ED → 80..9F`, otherwise `80..BF` table of Rust's
`std::str::from_utf8`, which excludes overlongs and surrogates). -/
def cont3 (b b1 : Nat) : Bool :=
  if b = 0xE0 then decide (0xA0 ≤ b1 ∧ b1 ≤ 0xBF)
  else if b = 0xED then decide (0x80 ≤ b1 ∧ b1 ≤ 0x9F)
  else contB b1

/-- Admissible second byte of a four-byte character led by `b` (the
`F0 → 90..BF`, `F4 → 80..8F`, otherwise `80..BF` table of Rust's
`std::str::from_utf8`, which excludes overlongs and values past
`U+10FFFF`). -/
def cont4 (b b1 : Nat) : Bool :=
  if b = 0xF0 then decide (0x90 ≤ b1 ∧ b1 ≤ 0xBF)
  else if b = 0xF4 then decide (0x80 ≤ b1 ∧ b1 ≤ 0x8F)
  else contB b1

/-- Validity of a byte list as a complete UTF-8 encoding, with exactly the
byte-range table used by Rust's `std::str::from_utf8` (no overlongs, no
surrogates, max `U+10FFFF`). -/
def validUtf8 : List Nat → Bool
  | [] => true
  | b :: rest =>
    if b < 0x80 then validUtf8 rest
    else if b < 0xC2 then false
    else if b ≤ 0xDF then
      match rest with
      | [] => false
      | b1 :: r1 => contB b1 && validUtf8 r1
    else if b ≤ 0xEF then
      match rest with
      | b1 :: b2 :: r2 => cont3 b b1 && contB b2 && validUtf8 r2
      | _ => false
    else if b ≤ 0xF4 then
      match rest with
      | b1 :: b2 :: b3 :: r3 => cont4 b b1 && contB b2 && contB b3 && validUtf8 r3
      | _ => false
    else false

theorem validUtf8_cons_eq (b : Nat) (rest : List Nat) :
    validUtf8 (b :: rest) =
      if b < 0x80 then validUtf8 rest
      else if b < 0xC2 then false
      else if b ≤ 0xDF then
        match rest with
        | [] => false
        | b1 :: r1 => contB b1 && validUtf8 r1
      else if b ≤ 0xEF then
        match rest with
        | b1 :: b2 :: r2 => cont3 b b1 && contB b2 && validUtf8 r2
        | _ => false
      else if b ≤ 0xF4 then
        match rest with
        | b1 :: b2 :: b3 :: r3 => cont4 b b1 && contB b2 && contB b3 && validUtf8 r3
        | _ => false
      else false := by
  match rest with
  | [] => rfl
  | [b1] => rfl
  | [b1, b2] => rfl
  | b1 :: b2 :: b3 :: r3 => rfl

/-- The slice `cbuf[i..j]` of a byte buffer. -/
def slice (l : List Nat) (i j : Nat) : List Nat := (l.drop i).take (j - i)

/-- `cost_ij` of `take_from_buffer`: 0 for a span that is valid UTF-8,
otherwise one unit per byte. -/
def spanCost (cbuf : List Nat) (i j : Nat) : Nat :=
  if validUtf8 (slice cbuf i j) then 0 else j - i

/-- The flattened triangular index `(m + 1) * i + j - (i + 2) * (i + 1) / 2`
used for the `valid_utf8` table. -/
def tri (m i j : Nat) : Nat := (m + 1) * i + j - (i + 2) * (i + 1) / 2

/-- Allocated length of the `valid_utf8` table:
`(m + 1) * m - (m + 1) * m / 2`. -/
def triLen (m : Nat) : Nat := (m + 1) * m - (m + 1) * m / 2

/-- The inner `for j in i + 1..=m` scan of the DP: starting from
`cur = (min_cost_i, backtrack_i)`, fold over the `n` candidate indices
`a, a + 1, ..., a + n - 1`, updating only on strict improvement of
`f j < min_cost_i`. -/
def scanMin (f : Nat → Nat) : Nat → Nat → Nat × Nat → Nat × Nat
  | _, 0, cur => cur
  | a, n + 1, cur => scanMin f (a + 1) n (if f a < cur.1 then (f a, a) else cur)

/-- The `valid_utf8` table writes performed while processing start index `i`:
entry `tri m i j` receives the validity of `cbuf[i..j]`, for
`j = i + 1, ..., i + n` (written in increasing `j` order, so larger `j`
shadows on any index collision, as the physical array would). -/
def storeVt (cbuf : List Nat) (m i : Nat) (vt : Nat → Bool) : Nat → Nat → Bool
  | 0 => vt
  | n + 1 => fun x =>
      if x = tri m i (i + 1 + n) then validUtf8 (slice cbuf i (i + 1 + n))
      else storeVt cbuf m i vt n x

/-- State of the DP after `k` iterations of `for i in (0..m).rev()`:
the `cost` vector, the `backtrack` vector and the `valid_utf8` table,
all zero/false-initialised as in the source.  Iteration `k + 1` processes
start index `i = m - (k + 1)`. -/
def dpState (cbuf : List Nat) (m : Nat) : Nat → (Nat → Nat) × (Nat → Nat) × (Nat → Bool)
  | 0 => (fun _ => 0, fun _ => 0, fun _ => false)
  | k + 1 =>
    let st := dpState cbuf m k
    let i := m - (k + 1)
    let res := scanMin (fun j => spanCost cbuf i j + st.1 j) (i + 1) (m - i) (USIZE_MAX, 0)
    (fun x => if x = i then res.1 else st.1 x,
     fun x => if x = i then res.2 else st.2.1 x,
     storeVt cbuf m i st.2.2 (m - i))

/-- The final `cost` vector of `take_from_buffer`. -/
def costF (cbuf : List Nat) (m : Nat) : Nat → Nat := (dpState cbuf m m).1

/-- The final `backtrack` vector of `take_from_buffer`. -/
def btF (cbuf : List Nat) (m : Nat) : Nat → Nat := (dpState cbuf m m).2.1

/-- The final `valid_utf8` table of `take_from_buffer`. -/
def vtF (cbuf : List Nat) (m : Nat) : Nat → Bool := (dpState cbuf m m).2.2

/-- The forward walk of `take_from_buffer`: while `i ≤ taken_limit && i < m`,
jump to `j = backtrack[i]`, writing `cbuf[i..j]` when the `valid_utf8` table
marks it valid.  Returns the final `i` (the value `taken`) and the list of
written spans.  `fuel` only bounds the number of jumps; `m + 1` jumps always
suffice for the runs the Rust program performs (each jump strictly
increases `i`, see `btF_progress`). -/
def walkLoop (cbuf : List Nat) (m tl : Nat) (bt : Nat → Nat) (vt : Nat → Bool) :
    Nat → Nat → Nat × List (List Nat)
  | 0, i => (i, [])
  | fuel + 1, i =>
    if i ≤ tl ∧ i < m then
      let j := bt i
      let r := walkLoop cbuf m tl bt vt fuel j
      if vt (tri m i j) then (r.1, slice cbuf i j :: r.2) else r
    else (i, [])

/-- `take_from_buffer(cbuf, m, taken_limit, w)`: returns the number of bytes
taken together with the list of spans written to `w`, in order. -/
def takeFromBuffer (cbuf : List Nat) (m tl : Nat) : Nat × List (List Nat) :=
  walkLoop cbuf m tl (btF cbuf m) (vtF cbuf m) (m + 1) 0

/-- A byte source (`impl std::io::Read`): `data` is the remaining byte
stream; `schedule` lists, per future `read` call, an upper bound the
implementation chooses to deliver on that call (an exhausted schedule means
the source always delivers as much as is requested and available).  A `read`
returns zero bytes whenever `data` is empty, and also on a scheduled `0`;
this covers every chunking a real reader may exhibit. -/
structure Source where
  data : List Nat
  schedule : List Nat
  deriving DecidableEq

/-- One `r.read(&mut buf[..cap])` call: returns the bytes delivered and the
new source state. -/
def srcRead (s : Source) (cap : Nat) : List Nat × Source :=
  let chunk := match s.schedule with | [] => cap | c :: _ => c
  let k := min cap (min chunk s.data.length)
  (s.data.take k, ⟨s.data.drop k, s.schedule.tail⟩)

/-- The `while in_bytes_total < byte` loop of `fill_buf`, with `need` the
remaining free capacity.  Returns the bytes placed into the buffer, `true`
for `Ok(())` / `false` for `Err(in_bytes_total)`, and the final source.
`fuel ≥ need` always suffices because each successful read delivers at
least one byte. -/
def fillGo : Nat → Source → Nat → List Nat × Bool × Source
  | _, s, 0 => ([], true, s)
  | 0, s, _ + 1 => ([], true, s)
  | fuel + 1, s, need + 1 =>
    let r := srcRead s (need + 1)
    match r.1 with
    | [] => ([], false, r.2)
    | b :: bs =>
      let rest := fillGo fuel r.2 (need + 1 - (b :: bs).length)
      (b :: (bs ++ rest.1), rest.2.1, rest.2.2)

/-- `fill_buf(&mut buf[..cap], r)`. -/
def fillBuf (s : Source) (cap : Nat) : List Nat × Bool × Source := fillGo cap s cap

/-- The `while m > 0` loop of `buffer_filter`.  `live` is `buf[..m]` (the
only bytes the round ever reads); one iteration takes from the buffer,
shifts the untaken tail to the front (`copy_within(taken..m, 0)`), refills
`buf[m - taken..]`, and on a short read widens `taken_limit` to the new
`m`.  Returns the written spans of all rounds plus the final `live`
(`[]` exactly when the loop exited with `m = 0`).  `fuel` bounds the number
of rounds; `data.length + live.length + 1` always suffices for the runs the
Rust program performs, since every round consumes at least one byte. -/
def bfLoop (bufSize : Nat) : Nat → Nat → List Nat → Source → List (List Nat) × List Nat
  | 0, _, live, _ => ([], live)
  | fuel + 1, tl, live, src =>
    if live.length = 0 then ([], [])
    else
      let r := takeFromBuffer live live.length tl
      let carry := live.drop r.1
      let f := fillBuf src (bufSize - carry.length)
      let live' := carry ++ f.1
      let tl' := if f.2.1 then tl else live'.length
      let rest := bfLoop bufSize fuel tl' live' f.2.2
      (r.2 ++ rest.1, rest.2)

/-- `buffer_filter(buf_size, taken_limit, r, w)`: the initial full-buffer
fill (`m = buf_size` on `Ok`, `taken_limit = m = n` on `Err(n)`) followed by
the draining loop.  Returns all written spans and the final `live` bytes. -/
def bufferFilter (bufSize tl : Nat) (src : Source) : List (List Nat) × List Nat :=
  let f := fillBuf src bufSize
  let tl0 := if f.2.1 then tl else f.1.length
  bfLoop bufSize (f.2.2.data.length + f.1.length + 1) tl0 f.1 f.2.2

/-- The byte test of `FilterWriter::write`:
`(c_byte < 11 && c_byte >= 9) || (c_byte < 127 && c_byte >= 32)`. -/
def asciiKeep (b : Nat) : Bool := decide ((9 ≤ b ∧ b < 11) ∨ (32 ≤ b ∧ b < 127))

/-- `char::len_utf8()` of the character led by byte `b`, for the lead bytes
valid UTF-8 can contain. -/
def utf8CharLen (b : Nat) : Nat :=
  if b < 0x80 then 1 else if b < 0xE0 then 2 else if b < 0xF0 then 3 else 4

/-- The `char_indices` loop of `FilterWriter::write` in ASCII-only mode:
characters of encoded length 1 are emitted iff `asciiKeep`; longer
characters are skipped whole.  Operates under the writer's precondition
that `buf` is valid UTF-8 (for such input the lead byte determines each
character's length). -/
def filterAscii : List Nat → List Nat
  | [] => []
  | b :: rest =>
    if b < 0x80 then
      if asciiKeep b then b :: filterAscii rest else filterAscii rest
    else if b < 0xE0 then
      match rest with
      | [] => []
      | _ :: r => filterAscii r
    else if b < 0xF0 then
      match rest with
      | _ :: _ :: r => filterAscii r
      | _ => []
    else
      match rest with
      | _ :: _ :: _ :: r => filterAscii r
      | _ => []

/-- `FilterWriter::write` as a byte transform: in ASCII-only mode the
filtered bytes, otherwise the slice unchanged. -/
def filterWrite (asciiOnly : Bool) (buf : List Nat) : List Nat :=
  if asciiOnly then filterAscii buf else buf

/-- `stdin_stdout_buffer_filter(buf_size, ascii_only)` as a function from
the byte source to the bytes reaching the backend sink:
`buffer_filter(buf_size, buf_size / 2, r, FilterWriter(w, ascii_only))`. -/
def pipeOut (bufSize : Nat) (asciiOnly : Bool) (src : Source) : List Nat :=
  (((bufferFilter bufSize (bufSize / 2) src).1).map (filterWrite asciiOnly)).flatten

/-- A single UTF-8 encoded character, by explicit byte ranges (each range
constraint is the one Rust's `from_utf8` enforces). -/
def oneCharB : List Nat → Bool
  | [b] => decide (b < 0x80)
  | [b, b1] => decide (0xC2 ≤ b ∧ b ≤ 0xDF) && contB b1
  | [b, b1, b2] => decide (0xE0 ≤ b ∧ b ≤ 0xEF) && cont3 b b1 && contB b2
  | [b, b1, b2, b3] => decide (0xF0 ≤ b ∧ b ≤ 0xF4) && cont4 b b1 && contB b2 && contB b3
  | _ => false

/-- Cost of one block of a partition, as the spec describes it: a block that
is valid UTF-8 costs 0, any other block costs its byte length. -/
def blockCost (b : List Nat) : Nat := if validUtf8 b then 0 else b.length

/-- Total cost of a partition into blocks. -/
def partCost (p : List (List Nat)) : Nat := (p.map blockCost).sum

/-! ### The inner scan: minimum and first-argmin -/

theorem scanMin_le (f : Nat → Nat) : ∀ (n a : Nat) (cur : Nat × Nat),
    (scanMin f a n cur).1 ≤ cur.1 ∧
    ∀ k, a ≤ k → k < a + n → (scanMin f a n cur).1 ≤ f k := by
  intro n
  induction n with
  | zero =>
    intro a cur
    exact ⟨le_refl _, fun k hk1 hk2 => absurd hk2 (by omega)⟩
  | succ n ih =>
    intro a cur
    simp only [scanMin]
    by_cases h : f a < cur.1
    · simp only [if_pos h]
      obtain ⟨h1, h2⟩ := ih (a + 1) (f a, a)
      refine ⟨le_trans h1 (le_of_lt h), fun k hk1 hk2 => ?_⟩
      rcases eq_or_lt_of_le hk1 with he | hl
      · exact he ▸ h1
      · exact h2 k hl (by omega)
    · simp only [if_neg h]
      obtain ⟨h1, h2⟩ := ih (a + 1) cur
      refine ⟨h1, fun k hk1 hk2 => ?_⟩
      rcases eq_or_lt_of_le hk1 with he | hl
      · exact he ▸ le_trans h1 (not_lt.mp h)
      · exact h2 k hl (by omega)

theorem scanMin_spec (f : Nat → Nat) : ∀ (n a : Nat) (cur : Nat × Nat),
    (scanMin f a n cur = cur ∧ ∀ k, a ≤ k → k < a + n → cur.1 ≤ f k) ∨
    (a ≤ (scanMin f a n cur).2 ∧ (scanMin f a n cur).2 < a + n ∧
     f (scanMin f a n cur).2 = (scanMin f a n cur).1 ∧
     (scanMin f a n cur).1 < cur.1 ∧
     ∀ k, a ≤ k → k < (scanMin f a n cur).2 → (scanMin f a n cur).1 < f k) := by
  intro n
  induction n with
  | zero =>
    intro a cur
    exact Or.inl ⟨rfl, fun k hk1 hk2 => absurd hk2 (by omega)⟩
  | succ n ih =>
    intro a cur
    simp only [scanMin]
    by_cases h : f a < cur.1
    · simp only [if_pos h]
      rcases ih (a + 1) (f a, a) with ⟨he, hall⟩ | ⟨h1, h2, h3, h4, h5⟩
      · refine Or.inr ?_
        rw [he]
        exact ⟨le_refl a, by omega, rfl, h, fun k hk1 hk2 => absurd hk2 (by omega)⟩
      · refine Or.inr ⟨by omega, by omega, h3, lt_trans h4 h, fun k hk1 hk2 => ?_⟩
        rcases eq_or_lt_of_le hk1 with hke | hkl
        · exact hke ▸ h4
        · exact h5 k hkl hk2
    · simp only [if_neg h]
      rcases ih (a + 1) cur with ⟨he, hall⟩ | ⟨h1, h2, h3, h4, h5⟩
      · refine Or.inl ⟨he, fun k hk1 hk2 => ?_⟩
        rcases eq_or_lt_of_le hk1 with hke | hkl
        · exact hke ▸ not_lt.mp h
        · exact hall k hkl (by omega)
      · refine Or.inr ⟨by omega, by omega, h3, h4, fun k hk1 hk2 => ?_⟩
        rcases eq_or_lt_of_le hk1 with hke | hkl
        · exact hke ▸ lt_of_lt_of_le h4 (not_lt.mp h)
        · exact h5 k hkl hk2

/-! ### Arithmetic of the flattened triangular index -/

theorem two_mul_triHalf (i : Nat) : 2 * ((i + 2) * (i + 1) / 2) = (i + 2) * (i + 1) := by
  have he : Even ((i + 1) * (i + 2)) := Nat.even_mul_succ_self (i + 1)
  have he' : Even ((i + 2) * (i + 1)) := by rwa [mul_comm] at he
  have := Nat.div_two_mul_two_of_even he'
  omega

theorem tri_no_underflow {m i j : Nat} (hij : i < j) (hjm : j ≤ m) :
    (i + 2) * (i + 1) / 2 ≤ (m + 1) * i + j := by
  have h2 := two_mul_triHalf i
  have hkey : (i + 2) * (i + 1) ≤ 2 * ((m + 1) * i + j) := by
    have him : i ≤ m := by omega
    nlinarith [Nat.mul_le_mul_right i him]
  omega

theorem tri_eq {m i j : Nat} (hij : i < j) (hjm : j ≤ m) :
    2 * tri m i j + (i + 2) * (i + 1) = 2 * ((m + 1) * i + j) := by
  have h0 := tri_no_underflow hij hjm
  have h2 := two_mul_triHalf i
  unfold tri
  omega

theorem triLen_eq (m : Nat) : 2 * triLen m = (m + 1) * m := by
  have he : Even (m * (m + 1)) := Nat.even_mul_succ_self m
  have he' : Even ((m + 1) * m) := by rwa [mul_comm] at he
  have := Nat.div_two_mul_two_of_even he'
  unfold triLen
  omega

theorem tri_lt_len {m i j : Nat} (hij : i < j) (hjm : j ≤ m) :
    tri m i j < triLen m := by
  have h1 := tri_eq hij hjm
  have h2 := triLen_eq m
  have hkey : 2 * ((m + 1) * i + j) + 2 ≤ (m + 1) * m + (i + 2) * (i + 1) := by
    have hmi : i < m := by omega
    nlinarith [Nat.mul_le_mul_left (m - i) (show (1:Nat) ≤ m - i by omega),
               Nat.sub_add_cancel (le_of_lt hmi)]
  omega

theorem tri_row_lt {m i j i' j' : Nat} (hij : i < j) (hjm : j ≤ m)
    (hii' : i < i') (hij' : i' < j') (hj'm : j' ≤ m) :
    tri m i j < tri m i' j' := by
  have h1 := tri_eq hij hjm
  have h2 := tri_eq hij' hj'm
  -- row max at (i, m) is below row min at (i', i' + 1); rows increase with i
  have hkey : 2 * ((m + 1) * i + m) + (i' + 2) * (i' + 1)
      < 2 * ((m + 1) * i' + (i' + 1)) + (i + 2) * (i + 1) := by
    -- with phi t := t * (2 * m + 1 - t): strict growth of row base
    have hi'm : i' ≤ m - 1 := by omega
    have hd : i + 1 ≤ i' := hii'
    nlinarith [Nat.mul_le_mul (show i + 1 ≤ i' from hd)
        (show 2 * m - i - i' ≤ 2 * m - 2 * i from by omega),
      Nat.sub_add_cancel (show i ≤ 2 * m from by omega),
      Nat.sub_add_cancel (show i + i' ≤ 2 * m from by omega),
      Nat.sub_add_cancel (show 2 * i ≤ 2 * m from by omega)]
  omega

theorem tri_inj {m i j i' j' : Nat} (hij : i < j) (hjm : j ≤ m)
    (hij' : i' < j') (hj'm : j' ≤ m) (heq : tri m i j = tri m i' j') :
    i = i' ∧ j = j' := by
  rcases Nat.lt_trichotomy i i' with h | h | h
  · exact absurd heq (Nat.ne_of_lt (tri_row_lt hij hjm h hij' hj'm))
  · subst h
    have h1 := tri_eq hij hjm
    have h2 := tri_eq hij' hj'm
    omega
  · exact absurd heq.symm (Nat.ne_of_lt (tri_row_lt hij' hj'm h hij hjm))

/-! ### DP state: stability, recurrence, backtrack characterisation -/

theorem scanMin_congr (f g : Nat → Nat) : ∀ (n a : Nat) (cur : Nat × Nat),
    (∀ k, a ≤ k → k < a + n → f k = g k) →
    scanMin f a n cur = scanMin g a n cur := by
  intro n
  induction n with
  | zero => intro a cur _; rfl
  | succ n ih =>
    intro a cur hfg
    simp only [scanMin]
    rw [hfg a (le_refl a) (by omega)]
    exact ih (a + 1) _ (fun k hk1 hk2 => hfg k (by omega) (by omega))

theorem dpState_untouched (cbuf : List Nat) (m : Nat) : ∀ k, k ≤ m → ∀ x, x < m - k ∨ m ≤ x →
    (dpState cbuf m k).1 x = 0 ∧ (dpState cbuf m k).2.1 x = 0 := by
  intro k
  induction k with
  | zero => intro _ x _; exact ⟨rfl, rfl⟩
  | succ k ih =>
    intro hk x hx
    have hxne : x ≠ m - (k + 1) := by omega
    simp only [dpState, if_neg hxne]
    exact ih (by omega) x (by omega)

theorem dpState_stable (cbuf : List Nat) (m k : Nat) : ∀ k', k ≤ k' → k' ≤ m → ∀ x, m - k ≤ x →
    (dpState cbuf m k').1 x = (dpState cbuf m k).1 x ∧
    (dpState cbuf m k').2.1 x = (dpState cbuf m k).2.1 x := by
  intro k'
  induction k' with
  | zero =>
    intro hk _ x _
    have : k = 0 := by omega
    subst this
    exact ⟨rfl, rfl⟩
  | succ k' ih =>
    intro hk hk' x hx
    rcases Nat.eq_or_lt_of_le hk with he | hl
    · subst he; exact ⟨rfl, rfl⟩
    · have hxne : x ≠ m - (k' + 1) := by omega
      simp only [dpState, if_neg hxne]
      exact ih (by omega) (by omega) x hx

theorem storeVt_ne (cbuf : List Nat) (m i : Nat) (vt : Nat → Bool) :
    ∀ n x, (∀ t, t < n → x ≠ tri m i (i + 1 + t)) → storeVt cbuf m i vt n x = vt x := by
  intro n
  induction n with
  | zero => intro x _; rfl
  | succ n ih =>
    intro x hx
    simp only [storeVt, if_neg (hx n (by omega))]
    exact ih x (fun t ht => hx t (by omega))

theorem storeVt_get (cbuf : List Nat) (m i : Nat) (vt : Nat → Bool) :
    ∀ n j, i < j → j ≤ i + n → i + n ≤ m →
    storeVt cbuf m i vt n (tri m i j) = validUtf8 (slice cbuf i j) := by
  intro n
  induction n with
  | zero => intro j h1 h2 _; omega
  | succ n ih =>
    intro j h1 h2 h3
    by_cases hj : j = i + 1 + n
    · subst hj
      simp [storeVt]
    · have hne : tri m i j ≠ tri m i (i + 1 + n) := by
        intro hc
        have := tri_inj h1 (by omega) (show i < i + 1 + n by omega) (by omega) hc
        omega
      simp only [storeVt, if_neg hne]
      exact ih j h1 (by omega) (by omega)

theorem dpState_vt (cbuf : List Nat) (m : Nat) : ∀ k, k ≤ m → ∀ i j, i < j → j ≤ m → m - k ≤ i →
    (dpState cbuf m k).2.2 (tri m i j) = validUtf8 (slice cbuf i j) := by
  intro k
  induction k with
  | zero => intro _ i j h1 h2 h3; omega
  | succ k ih =>
    intro hk i j h1 h2 h3
    by_cases hi : i = m - (k + 1)
    · subst hi
      simp only [dpState]
      exact storeVt_get cbuf m _ _ (m - (m - (k + 1))) j h1 (by omega) (by omega)
    · simp only [dpState]
      rw [storeVt_ne]
      · exact ih (by omega) i j h1 h2 (by omega)
      · intro t ht hc
        have := tri_inj h1 h2 (show m - (k + 1) < m - (k + 1) + 1 + t by omega) (by omega) hc
        omega

/-- The `valid_utf8` table entry the walk reads for an in-range pair is
exactly the validity of the slice the DP stored there. -/
theorem vtF_get (cbuf : List Nat) (m : Nat) {i j : Nat} (h1 : i < j) (h2 : j ≤ m) :
    vtF cbuf m (tri m i j) = validUtf8 (slice cbuf i j) :=
  dpState_vt cbuf m m (le_refl m) i j h1 h2 (by omega)

theorem costF_at_m (cbuf : List Nat) (m x : Nat) (hx : m ≤ x) : costF cbuf m x = 0 :=
  (dpState_untouched cbuf m m (le_refl m) x (Or.inr hx)).1

/-- The DP recurrence: for `i < m`, `cost[i]` and `backtrack[i]` are the
result of the inner scan over `j = i + 1, ..., m` with candidate value
`cost_ij + cost[j]`, read off the final `cost` vector. -/
theorem costF_rec (cbuf : List Nat) (m i : Nat) (him : i < m) :
    costF cbuf m i =
      (scanMin (fun j => spanCost cbuf i j + costF cbuf m j) (i + 1) (m - i) (USIZE_MAX, 0)).1 ∧
    btF cbuf m i =
      (scanMin (fun j => spanCost cbuf i j + costF cbuf m j) (i + 1) (m - i) (USIZE_MAX, 0)).2 := by
  obtain ⟨k, hsucc⟩ : ∃ k, m - i = k + 1 := ⟨m - i - 1, by omega⟩
  have hik : m - (k + 1) = i := by omega
  have hk1m : k + 1 ≤ m := by omega
  have hstab := dpState_stable cbuf m (k + 1) m hk1m (le_refl m) i (by omega)
  have hcongr : scanMin (fun j => spanCost cbuf i j + (dpState cbuf m k).1 j)
      (i + 1) (m - i) (USIZE_MAX, 0) =
      scanMin (fun j => spanCost cbuf i j + costF cbuf m j) (i + 1) (m - i) (USIZE_MAX, 0) := by
    apply scanMin_congr
    intro t ht1 ht2
    have hs := dpState_stable cbuf m k m (by omega) (le_refl m) t (by omega)
    show spanCost cbuf i t + (dpState cbuf m k).1 t = spanCost cbuf i t + (dpState cbuf m m).1 t
    rw [hs.1]
  have h1 : (dpState cbuf m (k + 1)).1 i =
      (scanMin (fun j => spanCost cbuf i j + (dpState cbuf m k).1 j)
        (i + 1) (m - i) (USIZE_MAX, 0)).1 ∧
      (dpState cbuf m (k + 1)).2.1 i =
      (scanMin (fun j => spanCost cbuf i j + (dpState cbuf m k).1 j)
        (i + 1) (m - i) (USIZE_MAX, 0)).2 := by
    simp only [dpState, hik]
    simp
  constructor
  · rw [show costF cbuf m i = (dpState cbuf m m).1 i from rfl, hstab.1, h1.1, hcongr]
  · rw [show btF cbuf m i = (dpState cbuf m m).2.1 i from rfl, hstab.2, h1.2, hcongr]

/-- `cost[i] ≤ cost_ij + cost[j]` for every candidate split `j`. -/
theorem costF_le_cand (cbuf : List Nat) (m : Nat) {i j : Nat} (him : i < m)
    (h1 : i < j) (h2 : j ≤ m) :
    costF cbuf m i ≤ spanCost cbuf i j + costF cbuf m j := by
  rw [(costF_rec cbuf m i him).1]
  exact (scanMin_le _ (m - i) (i + 1) (USIZE_MAX, 0)).2 j h1 (by omega)

theorem costF_le_sub (cbuf : List Nat) (m i : Nat) (him : i ≤ m) :
    costF cbuf m i ≤ m - i := by
  rcases Nat.eq_or_lt_of_le him with he | hl
  · subst he
    rw [costF_at_m cbuf i i (le_refl i)]
    omega
  · have := costF_le_cand cbuf m hl hl (le_refl m)
    rw [costF_at_m cbuf m m (le_refl m)] at this
    have hsc : spanCost cbuf i m ≤ m - i := by
      unfold spanCost
      split <;> omega
    omega

/-- Characterisation of `backtrack[i]` for `i < m` (on a buffer a 64-bit
process can hold): it is a genuine candidate, it attains the minimum, and it
is the first candidate attaining it — every smaller `j` is strictly worse. -/
theorem btF_spec (cbuf : List Nat) (m i : Nat) (him : i < m) (hM : m < USIZE_MAX) :
    i < btF cbuf m i ∧ btF cbuf m i ≤ m ∧
    spanCost cbuf i (btF cbuf m i) + costF cbuf m (btF cbuf m i) = costF cbuf m i ∧
    ∀ j, i < j → j < btF cbuf m i →
      costF cbuf m i < spanCost cbuf i j + costF cbuf m j := by
  obtain ⟨hc, hb⟩ := costF_rec cbuf m i him
  rcases scanMin_spec (fun j => spanCost cbuf i j + costF cbuf m j) (m - i) (i + 1)
      (USIZE_MAX, 0) with ⟨_, hall⟩ | ⟨h1, h2, h3, _, h5⟩
  · exfalso
    have hm := hall m (by omega) (by omega)
    simp only at hm
    rw [costF_at_m cbuf m m (le_refl m)] at hm
    have hsc : spanCost cbuf i m ≤ m - i := by
      unfold spanCost
      split <;> omega
    omega
  · rw [hb, hc]
    refine ⟨by omega, by omega, h3, fun j hj1 hj2 => h5 j (by omega) hj2⟩

theorem btF_progress (cbuf : List Nat) (m i : Nat) (him : i < m) (hM : m < USIZE_MAX) :
    i < btF cbuf m i ∧ btF cbuf m i ≤ m :=
  ⟨(btF_spec cbuf m i him hM).1, (btF_spec cbuf m i him hM).2.1⟩

/-! ### Structure of valid UTF-8 byte lists -/

theorem cont3_contB {b b1 : Nat} (h : cont3 b b1 = true) : contB b1 = true := by
  unfold cont3 at h
  split_ifs at h with h1 h2
  · simp only [decide_eq_true_eq] at h
    simp only [contB, decide_eq_true_eq]
    omega
  · simp only [decide_eq_true_eq] at h
    simp only [contB, decide_eq_true_eq]
    omega
  · exact h

theorem cont4_contB {b b1 : Nat} (h : cont4 b b1 = true) : contB b1 = true := by
  unfold cont4 at h
  split_ifs at h with h1 h2
  · simp only [decide_eq_true_eq] at h
    simp only [contB, decide_eq_true_eq]
    omega
  · simp only [decide_eq_true_eq] at h
    simp only [contB, decide_eq_true_eq]
    omega
  · exact h

theorem oneCharB_length_pos {c : List Nat} (hc : oneCharB c = true) : 1 ≤ c.length := by
  match c with
  | [] => simp [oneCharB] at hc
  | _ :: _ => simp

theorem oneCharB_length {c : List Nat} (hc : oneCharB c = true) :
    c.length = utf8CharLen (c.headD 0) := by
  match c with
  | [] => simp [oneCharB] at hc
  | [b] =>
    simp only [oneCharB, decide_eq_true_eq] at hc
    simp [utf8CharLen, hc]
  | [b, b1] =>
    simp only [oneCharB, Bool.and_eq_true, decide_eq_true_eq] at hc
    simp only [List.length_cons, List.length_nil, List.headD_cons, utf8CharLen]
    rw [if_neg (by omega), if_pos (by omega)]
  | [b, b1, b2] =>
    simp only [oneCharB, Bool.and_eq_true, decide_eq_true_eq] at hc
    simp only [List.length_cons, List.length_nil, List.headD_cons, utf8CharLen]
    rw [if_neg (by omega), if_neg (by omega), if_pos (by omega)]
  | [b, b1, b2, b3] =>
    simp only [oneCharB, Bool.and_eq_true, decide_eq_true_eq] at hc
    simp only [List.length_cons, List.length_nil, List.headD_cons, utf8CharLen]
    rw [if_neg (by omega), if_neg (by omega), if_neg (by omega)]
  | _ :: _ :: _ :: _ :: _ :: _ => simp [oneCharB] at hc

theorem oneCharB_tail_cont {c : List Nat} (hc : oneCharB c = true) :
    ∀ x ∈ c.tail, contB x = true := by
  match c with
  | [] => simp [oneCharB] at hc
  | [b] => simp
  | [b, b1] =>
    simp only [oneCharB, Bool.and_eq_true, decide_eq_true_eq] at hc
    intro x hx
    simp only [List.tail_cons, List.mem_singleton] at hx
    subst hx
    exact hc.2
  | [b, b1, b2] =>
    simp only [oneCharB, Bool.and_eq_true, decide_eq_true_eq] at hc
    intro x hx
    simp only [List.tail_cons, List.mem_cons, List.mem_singleton] at hx
    rcases hx with hx | hx | hx
    · subst hx; exact cont3_contB hc.1.2
    · subst hx; exact hc.2
    · simp at hx
  | [b, b1, b2, b3] =>
    simp only [oneCharB, Bool.and_eq_true, decide_eq_true_eq] at hc
    intro x hx
    simp only [List.tail_cons, List.mem_cons, List.mem_singleton] at hx
    rcases hx with hx | hx | hx | hx
    · subst hx; exact cont4_contB hc.1.1.2
    · subst hx; exact hc.1.2
    · subst hx; exact hc.2
    · simp at hx
  | _ :: _ :: _ :: _ :: _ :: _ => simp [oneCharB] at hc

theorem oneCharB_multibyte_head {c : List Nat} (hc : oneCharB c = true)
    (hlen : 2 ≤ c.length) : contB (c.headD 0) = false := by
  match c with
  | [] => simp [oneCharB] at hc
  | [b] => simp at hlen
  | [b, b1] =>
    simp only [oneCharB, Bool.and_eq_true, decide_eq_true_eq] at hc
    simp only [List.headD_cons, contB, decide_eq_false_iff_not]
    omega
  | [b, b1, b2] =>
    simp only [oneCharB, Bool.and_eq_true, decide_eq_true_eq] at hc
    simp only [List.headD_cons, contB, decide_eq_false_iff_not]
    omega
  | [b, b1, b2, b3] =>
    simp only [oneCharB, Bool.and_eq_true, decide_eq_true_eq] at hc
    simp only [List.headD_cons, contB, decide_eq_false_iff_not]
    omega
  | _ :: _ :: _ :: _ :: _ :: _ => simp [oneCharB] at hc

/-- Every valid nonempty byte list starts with one full character. -/
theorem validUtf8_decomp (l : List Nat) (hv : validUtf8 l = true) :
    l = [] ∨ ∃ c r, oneCharB c = true ∧ l = c ++ r ∧ validUtf8 r = true := by
  match l with
  | [] => exact Or.inl rfl
  | b :: rest =>
    refine Or.inr ?_
    rw [validUtf8_cons_eq] at hv
    split_ifs at hv with h1 h2 h3 h4 h5
    · exact ⟨[b], rest, by simp [oneCharB]; omega, rfl, hv⟩
    · match rest, hv with
      | b1 :: r1, hv =>
        rw [Bool.and_eq_true] at hv
        refine ⟨[b, b1], r1, ?_, rfl, hv.2⟩
        simp only [oneCharB, Bool.and_eq_true, decide_eq_true_eq]
        exact ⟨by omega, hv.1⟩
    · match rest, hv with
      | [], hv => exact absurd hv (by simp)
      | [b1], hv => exact absurd hv (by simp)
      | b1 :: b2 :: r2, hv =>
        rw [Bool.and_eq_true, Bool.and_eq_true] at hv
        refine ⟨[b, b1, b2], r2, ?_, rfl, hv.2⟩
        simp only [oneCharB, Bool.and_eq_true, decide_eq_true_eq]
        exact ⟨⟨by omega, hv.1.1⟩, hv.1.2⟩
    · match rest, hv with
      | [], hv => exact absurd hv (by simp)
      | [b1], hv => exact absurd hv (by simp)
      | [b1, b2], hv => exact absurd hv (by simp)
      | b1 :: b2 :: b3 :: r3, hv =>
        rw [Bool.and_eq_true, Bool.and_eq_true, Bool.and_eq_true] at hv
        refine ⟨[b, b1, b2, b3], r3, ?_, rfl, hv.2⟩
        simp only [oneCharB, Bool.and_eq_true, decide_eq_true_eq]
        exact ⟨⟨⟨by omega, hv.1.1.1⟩, hv.1.1.2⟩, hv.1.2⟩

/-- Prepending one full character preserves/reflects validity. -/
theorem validUtf8_char_append (c r : List Nat) (hc : oneCharB c = true) :
    validUtf8 (c ++ r) = validUtf8 r := by
  match c with
  | [] => simp [oneCharB] at hc
  | [b] =>
    simp only [oneCharB, decide_eq_true_eq] at hc
    simp only [List.cons_append, List.nil_append]
    rw [validUtf8_cons_eq]
    rw [if_pos hc]
  | [b, b1] =>
    simp only [oneCharB, Bool.and_eq_true, decide_eq_true_eq] at hc
    simp only [List.cons_append, List.nil_append]
    rw [validUtf8_cons_eq]
    rw [if_neg (by omega), if_neg (by omega), if_pos (by omega)]
    simp [hc.2]
  | [b, b1, b2] =>
    simp only [oneCharB, Bool.and_eq_true, decide_eq_true_eq] at hc
    simp only [List.cons_append, List.nil_append]
    rw [validUtf8_cons_eq]
    rw [if_neg (by omega), if_neg (by omega), if_neg (by omega), if_pos (by omega)]
    simp [hc.1.2, hc.2]
  | [b, b1, b2, b3] =>
    simp only [oneCharB, Bool.and_eq_true, decide_eq_true_eq] at hc
    simp only [List.cons_append, List.nil_append]
    rw [validUtf8_cons_eq]
    rw [if_neg (by omega), if_neg (by omega), if_neg (by omega), if_neg (by omega),
      if_pos (by omega)]
    simp [hc.1.1.2, hc.1.2, hc.2]
  | _ :: _ :: _ :: _ :: _ :: _ => simp [oneCharB] at hc

theorem validUtf8_append_aux : ∀ (n : Nat) (u : List Nat), u.length ≤ n →
    validUtf8 u = true → ∀ v, validUtf8 (u ++ v) = validUtf8 v := by
  intro n
  induction n with
  | zero =>
    intro u hlen hu v
    have : u = [] := List.length_eq_zero.mp (by omega)
    subst this
    simp
  | succ n ih =>
    intro u hlen hu v
    rcases validUtf8_decomp u hu with he | ⟨c, r, hc, heq, hr⟩
    · subst he; simp
    · subst heq
      rw [List.append_assoc, validUtf8_char_append c (r ++ v) hc]
      refine ih r ?_ hr v
      have := oneCharB_length_pos hc
      have hlu : (c ++ r).length = c.length + r.length := List.length_append c r
      omega

/-- Dropping a valid prefix preserves/reflects validity of the rest. -/
theorem validUtf8_append (u v : List Nat) (hu : validUtf8 u = true) :
    validUtf8 (u ++ v) = validUtf8 v :=
  validUtf8_append_aux u.length u (le_refl _) hu v

theorem validUtf8_append_valid {u v : List Nat} (hu : validUtf8 u = true)
    (hv : validUtf8 v = true) : validUtf8 (u ++ v) = true := by
  rw [validUtf8_append u v hu]
  exact hv

theorem validUtf8_split_aux : ∀ (n : Nat) (u w : List Nat), u.length ≤ n →
    validUtf8 (u ++ w) = true → contB (w.headD 0) = false →
    validUtf8 u = true ∧ validUtf8 w = true := by
  intro n
  induction n with
  | zero =>
    intro u w hl hv _
    have hu : u = [] := List.length_eq_zero.mp (by omega)
    subst hu
    exact ⟨rfl, hv⟩
  | succ n ih =>
    intro u w hl hv hw
    match u with
    | [] => exact ⟨rfl, hv⟩
    | a :: u' =>
      rcases validUtf8_decomp _ hv with he | ⟨c, r, hc, heq, hr⟩
      · simp at he
      · have hc1 := oneCharB_length_pos hc
        by_cases hcu : c.length ≤ (a :: u').length
        · have htake : c = (a :: u').take c.length := by
            have h1 : ((a :: u') ++ w).take c.length = c := by
              rw [heq, List.take_left]
            rw [List.take_append_eq_append_take] at h1
            rw [Nat.sub_eq_zero_of_le hcu] at h1
            simpa using h1.symm
          have hdropr : r = (a :: u').drop c.length ++ w := by
            have h1 : ((a :: u') ++ w).drop c.length = r := by
              rw [heq, List.drop_left]
            rw [List.drop_append_eq_append_drop] at h1
            rw [Nat.sub_eq_zero_of_le hcu] at h1
            simpa using h1.symm
          have hrest := ih ((a :: u').drop c.length) w
            (by rw [List.length_drop]; simp only [List.length_cons] at hl ⊢; omega)
            (by rw [← hdropr]; exact hr) hw
          refine ⟨?_, hrest.2⟩
          have hu' : (a :: u') = c ++ (a :: u').drop c.length := by
            conv_lhs => rw [← List.take_append_drop c.length (a :: u')]
            rw [← htake]
          rw [hu', validUtf8_char_append c _ hc]
          exact hrest.1
        · -- the first character would straddle into w: its byte at position
          -- `u.length` is a continuation byte, contradicting `hw`
          exfalso
          match w with
          | [] =>
            rw [List.append_nil] at heq
            have hlen : (a :: u').length = c.length + r.length := by
              rw [heq, List.length_append]
            omega
          | w0 :: w' =>
            have htake : c = (a :: u') ++ (w0 :: w').take (c.length - (a :: u').length) := by
              have h1 : ((a :: u') ++ w0 :: w').take c.length = c := by
                rw [heq, List.take_left]
              rw [List.take_append_eq_append_take] at h1
              rw [List.take_of_length_le (by omega)] at h1
              exact h1.symm
            have hpos : 1 ≤ c.length - (a :: u').length := by
              simp only [List.length_cons] at hcu ⊢
              omega
            have hw0 : w0 ∈ c.tail := by
              rw [htake]
              have : (w0 :: w').take (c.length - (a :: u').length) =
                  w0 :: w'.take (c.length - (a :: u').length - 1) := by
                match hkk : c.length - (a :: u').length, hpos with
                | k + 1, _ => simp
              rw [this]
              simp only [List.cons_append, List.tail_cons]
              exact List.mem_append_right _ (List.mem_cons_self _ _)
            have := oneCharB_tail_cont hc w0 hw0
            simp only [List.headD_cons] at hw
            rw [hw] at this
            exact Bool.false_ne_true this

/-- Splitting a valid byte list just before a byte that is not a
continuation byte splits it into two valid byte lists. -/
theorem validUtf8_split (u w : List Nat) (hv : validUtf8 (u ++ w) = true)
    (hw : contB (w.headD 0) = false) : validUtf8 u = true ∧ validUtf8 w = true :=
  validUtf8_split_aux u.length u w (le_refl _) hv hw

/-- A valid byte list that starts with the bytes of one full character
starts with that character: the remainder past it is valid too. -/
theorem validUtf8_take_char (w c : List Nat) (hw : validUtf8 w = true)
    (hc : oneCharB c = true) (ht : w.take c.length = c) :
    w = c ++ w.drop c.length ∧ validUtf8 (w.drop c.length) = true := by
  have hc1 := oneCharB_length_pos hc
  have hwne : w ≠ [] := by
    intro he
    subst he
    simp only [List.take_nil] at ht
    rw [← ht] at hc1
    simp at hc1
  rcases validUtf8_decomp w hw with he | ⟨c', r', hc', heq, hr'⟩
  · exact absurd he hwne
  · have hc'1 := oneCharB_length_pos hc'
    have hhead : c'.headD 0 = c.headD 0 := by
      match c', hc'1, c, hc1 with
      | x :: xs, _, y :: ys, _ =>
        have h1 : w.headD 0 = x := by rw [heq]; match xs with | _ => simp
        have h2 : w.headD 0 = y := by
          have : w.take (y :: ys).length = y :: ys := ht
          match w, hwne with
          | z :: zs, _ =>
            simp only [List.length_cons, List.take_succ_cons] at this
            have := List.head_eq_of_cons_eq this
            simp [this]
        simp [← h1, ← h2]
    have hlen : c'.length = c.length := by
      rw [oneCharB_length hc', oneCharB_length hc, hhead]
    have hceq : c' = c := by
      have h1 : w.take c'.length = c' := by rw [heq]; exact List.take_left c' r'
      rw [hlen] at h1
      rw [← h1, ht]
    subst hceq
    have hdrop : w.drop c'.length = r' := by rw [heq]; exact List.drop_left c' r'
    rw [hdrop]
    exact ⟨heq, hr'⟩

/-- No proper nonempty prefix of a single multi-byte character is valid. -/
theorem oneCharB_take_invalid {c : List Nat} (hc : oneCharB c = true) (k : Nat)
    (hk1 : 1 ≤ k) (hk2 : k < c.length) : validUtf8 (c.take k) = false := by
  match c with
  | [] => simp [oneCharB] at hc
  | [b] => simp at hk2; omega
  | [b, b1] =>
    simp only [oneCharB, Bool.and_eq_true, decide_eq_true_eq] at hc
    have hk : k = 1 := by simp at hk2; omega
    subst hk
    simp only [List.take_succ_cons, List.take_zero]
    rw [validUtf8_cons_eq]
    rw [if_neg (by omega), if_neg (by omega), if_pos (by omega)]
  | [b, b1, b2] =>
    simp only [oneCharB, Bool.and_eq_true, decide_eq_true_eq] at hc
    have hk : k = 1 ∨ k = 2 := by simp at hk2; omega
    rcases hk with hk | hk <;> subst hk
    · simp only [List.take_succ_cons, List.take_zero]
      rw [validUtf8_cons_eq]
      rw [if_neg (by omega), if_neg (by omega), if_neg (by omega), if_pos (by omega)]
    · simp only [List.take_succ_cons, List.take_zero]
      rw [validUtf8_cons_eq]
      rw [if_neg (by omega), if_neg (by omega), if_neg (by omega), if_pos (by omega)]
  | [b, b1, b2, b3] =>
    simp only [oneCharB, Bool.and_eq_true, decide_eq_true_eq] at hc
    have hk : k = 1 ∨ k = 2 ∨ k = 3 := by simp at hk2; omega
    rcases hk with hk | hk | hk <;> subst hk <;>
      · simp only [List.take_succ_cons, List.take_zero]
        rw [validUtf8_cons_eq]
        rw [if_neg (by omega), if_neg (by omega), if_neg (by omega), if_neg (by omega),
          if_pos (by omega)]
  | _ :: _ :: _ :: _ :: _ :: _ => simp [oneCharB] at hc

theorem validUtf8_all_ascii : ∀ l : List Nat, (∀ b ∈ l, b < 0x80) → validUtf8 l = true := by
  intro l
  induction l with
  | nil => intro _; rfl
  | cons a l ih =>
    intro h
    rw [validUtf8_cons_eq, if_pos (h a (List.mem_cons_self a l))]
    exact ih (fun b hb => h b (List.mem_cons_of_mem a hb))

/-! ### The forward walk -/

theorem walkLoop_succ_fst (cbuf : List Nat) (m tl : Nat) (bt : Nat → Nat)
    (vt : Nat → Bool) (fuel i : Nat) :
    (walkLoop cbuf m tl bt vt (fuel + 1) i).1 =
      if i ≤ tl ∧ i < m then (walkLoop cbuf m tl bt vt fuel (bt i)).1 else i := by
  simp only [walkLoop]
  split
  · cases h : vt (tri m i (bt i)) <;> simp [h]
  · rfl

theorem walkLoop_succ_snd (cbuf : List Nat) (m tl : Nat) (bt : Nat → Nat)
    (vt : Nat → Bool) (fuel i : Nat) :
    (walkLoop cbuf m tl bt vt (fuel + 1) i).2 =
      if i ≤ tl ∧ i < m then
        (if vt (tri m i (bt i)) then [slice cbuf i (bt i)] else []) ++
          (walkLoop cbuf m tl bt vt fuel (bt i)).2
      else [] := by
  simp only [walkLoop]
  split
  · cases h : vt (tri m i (bt i)) <;> simp [h]
  · rfl

/-- `backtrack[i]` is either the zero it was initialised with (which the
Rust program never produces on a real buffer) or a genuine candidate. -/
theorem btF_range (cbuf : List Nat) (m i : Nat) (him : i < m) :
    btF cbuf m i = 0 ∨ (i < btF cbuf m i ∧ btF cbuf m i ≤ m) := by
  rw [(costF_rec cbuf m i him).2]
  rcases scanMin_spec (fun j => spanCost cbuf i j + costF cbuf m j) (m - i) (i + 1)
      (USIZE_MAX, 0) with ⟨he, _⟩ | ⟨h1, h2, _, _, _⟩
  · rw [he]
    exact Or.inl rfl
  · exact Or.inr ⟨by omega, by omega⟩

theorem walk_bounds (cbuf : List Nat) (m tl : Nat) (hM : m < USIZE_MAX) :
    ∀ fuel i, i ≤ m → m - i < fuel →
    i ≤ (walkLoop cbuf m tl (btF cbuf m) (vtF cbuf m) fuel i).1 ∧
    (walkLoop cbuf m tl (btF cbuf m) (vtF cbuf m) fuel i).1 ≤ m ∧
    (tl < (walkLoop cbuf m tl (btF cbuf m) (vtF cbuf m) fuel i).1 ∨
     (walkLoop cbuf m tl (btF cbuf m) (vtF cbuf m) fuel i).1 = m) := by
  intro fuel
  induction fuel with
  | zero => intro i him hf; omega
  | succ fuel ih =>
    intro i him hf
    rw [walkLoop_succ_fst]
    by_cases hcond : i ≤ tl ∧ i < m
    · rw [if_pos hcond]
      have hprog := btF_progress cbuf m i hcond.2 hM
      have hr := ih (btF cbuf m i) hprog.2 (by omega)
      exact ⟨le_trans (le_of_lt hprog.1) hr.1, hr.2.1, hr.2.2⟩
    · rw [if_neg hcond]
      refine ⟨le_refl i, him, ?_⟩
      rcases not_and_or.mp hcond with h | h
      · exact Or.inl (by omega)
      · exact Or.inr (by omega)

/-- Every span the walk writes is valid UTF-8 and is a slice of the
buffer (even degenerately, with no assumption on `m`). -/
theorem walk_spans (cbuf : List Nat) (m tl : Nat) :
    ∀ fuel i, ∀ s ∈ (walkLoop cbuf m tl (btF cbuf m) (vtF cbuf m) fuel i).2,
    validUtf8 s = true ∧ ∃ a b, s = slice cbuf a b := by
  intro fuel
  induction fuel with
  | zero => intro i s hs; simp [walkLoop] at hs
  | succ fuel ih =>
    intro i s hs
    rw [walkLoop_succ_snd] at hs
    by_cases hcond : i ≤ tl ∧ i < m
    · rw [if_pos hcond] at hs
      rcases List.mem_append.mp hs with hs | hs
      · by_cases hvt : vtF cbuf m (tri m i (btF cbuf m i)) = true
        · rw [if_pos hvt] at hs
          simp only [List.mem_singleton] at hs
          subst hs
          refine ⟨?_, i, btF cbuf m i, rfl⟩
          rcases btF_range cbuf m i hcond.2 with hz | ⟨h1, h2⟩
          · -- degenerate: `slice cbuf i 0` is empty, hence valid
            rw [hz]
            have : slice cbuf i 0 = [] := by
              unfold slice
              rw [Nat.sub_eq_zero_of_le (by omega)]
              exact List.take_zero _
            rw [this]
            rfl
          · rw [← vtF_get cbuf m h1 h2]
            exact hvt
        · rw [if_neg hvt] at hs
          simp at hs
      · exact ih (btF cbuf m i) s hs
    · rw [if_neg hcond] at hs
      simp at hs

/-! ### Claim theorems: backtrack tie-breaking, taken bounds, table indexing -/

/-- Claim C3 counterexample: on the buffer `[0xFF, 0xFF]` with `m = 2` and
start index `i = 0`, the end indices `j = 1` and `j = 2` achieve the same
minimal total cost, yet `backtrack[0]` is `1` — the earliest such `j`, not
the latest (`2`) as the claim asserts. -/
theorem c3_counterexample :
    spanCost [0xFF, 0xFF] 0 1 + costF [0xFF, 0xFF] 2 1 =
      spanCost [0xFF, 0xFF] 0 2 + costF [0xFF, 0xFF] 2 2 ∧
    spanCost [0xFF, 0xFF] 0 1 + costF [0xFF, 0xFF] 2 1 = costF [0xFF, 0xFF] 2 0 ∧
    btF [0xFF, 0xFF] 2 0 = 1 ∧ btF [0xFF, 0xFF] 2 0 ≠ 2 := by
  refine ⟨by decide, by decide, by decide, by decide⟩

/-- Claim C3 (amended): in the DP of `take_from_buffer`, for every start
index `i < m`, `backtrack[i]` attains the minimal total cost
(`cost_ij + cost[j]`), and when several end indices `j` attain it,
`backtrack[i]` is the EARLIEST (smallest) such `j`: the scan updates only
on strict improvement, so later ties never displace it. -/
theorem c3_backtrack_first_argmin (cbuf : List Nat) (m i : Nat)
    (him : i < m) (hM : m < USIZE_MAX) :
    (i < btF cbuf m i ∧ btF cbuf m i ≤ m) ∧
    spanCost cbuf i (btF cbuf m i) + costF cbuf m (btF cbuf m i) = costF cbuf m i ∧
    ∀ j, i < j → j ≤ m →
      spanCost cbuf i j + costF cbuf m j = costF cbuf m i → btF cbuf m i ≤ j := by
  obtain ⟨h1, h2, h3, h4⟩ := btF_spec cbuf m i him hM
  refine ⟨⟨h1, h2⟩, h3, fun j hj1 hj2 hj3 => ?_⟩
  by_contra hlt
  have := h4 j hj1 (by omega)
  omega

theorem c3_backtrack_first_argmin_witness :
    (0 < 2 ∧ 2 < USIZE_MAX) ∧
    ((0 < btF [0xFF, 0xFF] 2 0 ∧ btF [0xFF, 0xFF] 2 0 ≤ 2) ∧
     spanCost [0xFF, 0xFF] 0 (btF [0xFF, 0xFF] 2 0) +
       costF [0xFF, 0xFF] 2 (btF [0xFF, 0xFF] 2 0) = costF [0xFF, 0xFF] 2 0 ∧
     ∀ j, 0 < j → j ≤ 2 →
       spanCost [0xFF, 0xFF] 0 j + costF [0xFF, 0xFF] 2 j = costF [0xFF, 0xFF] 2 0 →
       btF [0xFF, 0xFF] 2 0 ≤ j) :=
  ⟨⟨by decide, by decide⟩,
   c3_backtrack_first_argmin [0xFF, 0xFF] 2 0 (by decide) (by decide)⟩

/-- Claim C6: for a nonempty data size `m ≤ cbuf.len()` and
`taken_limit ≤ m`, `take_from_buffer` returns `taken` with
`taken_limit ≤ taken ≤ m`; moreover either the final jump strictly passed
`taken_limit`, or the walk consumed the whole buffer (`taken = m`) — the
bound limits where a span may start, not the byte count consumed. -/
theorem c6_taken_bounds (cbuf : List Nat) (m tl : Nat) (hm0 : 0 < m)
    (hmc : m ≤ cbuf.length) (htl : tl ≤ m) (hM : m < USIZE_MAX) :
    tl ≤ (takeFromBuffer cbuf m tl).1 ∧ (takeFromBuffer cbuf m tl).1 ≤ m ∧
    (tl < (takeFromBuffer cbuf m tl).1 ∨ (takeFromBuffer cbuf m tl).1 = m) := by
  have h := walk_bounds cbuf m tl hM (m + 1) 0 (by omega) (by omega)
  unfold takeFromBuffer
  refine ⟨?_, h.2.1, h.2.2⟩
  rcases h.2.2 with hc | hc
  · omega
  · omega

theorem c6_taken_bounds_witness :
    (0 < 5 ∧ 5 ≤ ([97, 98, 99, 100, 101, 102] : List Nat).length ∧ 2 ≤ 5 ∧
      5 < USIZE_MAX) ∧
    (2 ≤ (takeFromBuffer [97, 98, 99, 100, 101, 102] 5 2).1 ∧
     (takeFromBuffer [97, 98, 99, 100, 101, 102] 5 2).1 ≤ 5 ∧
     (2 < (takeFromBuffer [97, 98, 99, 100, 101, 102] 5 2).1 ∨
      (takeFromBuffer [97, 98, 99, 100, 101, 102] 5 2).1 = 5)) :=
  ⟨⟨by decide, by decide, by decide, by decide⟩,
   c6_taken_bounds [97, 98, 99, 100, 101, 102] 5 2 (by decide) (by decide)
     (by decide) (by decide)⟩

/-- Claim C10: the flattened triangular index used for the `valid_utf8`
table never underflows, stays below the allocated length, and is injective
over the in-range pairs `i < j ≤ m`; consequently the walk's load at
`(i, backtrack[i])` reads back exactly the validity value the DP stored for
the same slice `cbuf[i..j]`. -/
theorem c10_tri_index_safe (m : Nat) :
    (∀ i j, i < j → j ≤ m →
      (i + 2) * (i + 1) / 2 ≤ (m + 1) * i + j ∧ tri m i j < triLen m) ∧
    (∀ i j i' j', i < j → j ≤ m → i' < j' → j' ≤ m →
      tri m i j = tri m i' j' → i = i' ∧ j = j') ∧
    (∀ cbuf : List Nat, ∀ i j, i < j → j ≤ m →
      vtF cbuf m (tri m i j) = validUtf8 (slice cbuf i j)) ∧
    (∀ cbuf : List Nat, ∀ i, i < m → m < USIZE_MAX →
      i < btF cbuf m i ∧ btF cbuf m i ≤ m ∧
      vtF cbuf m (tri m i (btF cbuf m i)) = validUtf8 (slice cbuf i (btF cbuf m i))) := by
  refine ⟨fun i j h1 h2 => ⟨tri_no_underflow h1 h2, tri_lt_len h1 h2⟩,
    fun i j i' j' h1 h2 h3 h4 h5 => tri_inj h1 h2 h3 h4 h5,
    fun cbuf i j h1 h2 => vtF_get cbuf m h1 h2,
    fun cbuf i him hM => ?_⟩
  obtain ⟨h1, h2⟩ := btF_progress cbuf m i him hM
  exact ⟨h1, h2, vtF_get cbuf m h1 h2⟩

theorem c10_tri_index_safe_witness :
    ((∀ i j, i < j → j ≤ 3 →
      (i + 2) * (i + 1) / 2 ≤ (3 + 1) * i + j ∧ tri 3 i j < triLen 3) ∧
    (∀ i j i' j', i < j → j ≤ 3 → i' < j' → j' ≤ 3 →
      tri 3 i j = tri 3 i' j' → i = i' ∧ j = j') ∧
    (∀ cbuf : List Nat, ∀ i j, i < j → j ≤ 3 →
      vtF cbuf 3 (tri 3 i j) = validUtf8 (slice cbuf i j)) ∧
    (∀ cbuf : List Nat, ∀ i, i < 3 → 3 < USIZE_MAX →
      i < btF cbuf 3 i ∧ btF cbuf 3 i ≤ 3 ∧
      vtF cbuf 3 (tri 3 i (btF cbuf 3 i)) = validUtf8 (slice cbuf i (btF cbuf 3 i)))) ∧
    tri 3 0 1 = 0 ∧ tri 3 2 3 = 5 ∧ triLen 3 = 6 :=
  ⟨c10_tri_index_safe 3, by decide, by decide, by decide⟩

/-! ### Claim C4: the cost table is the optimal partition cost -/

theorem slice_length (l : List Nat) {x y : Nat} (h1 : x ≤ y) (h2 : y ≤ l.length) :
    (slice l x y).length = y - x := by
  unfold slice
  rw [List.length_take, List.length_drop]
  omega

theorem slice_split (l : List Nat) {x p j : Nat} (h1 : x ≤ p) (h2 : p ≤ j) :
    slice l x j = slice l x p ++ slice l p j := by
  unfold slice
  have hj : j - x = (p - x) + (j - p) := by omega
  rw [hj, List.take_add, List.drop_drop]
  rw [show x + (p - x) = p from by omega]

theorem spanCost_eq_blockCost (l : List Nat) {i j : Nat} (h1 : i ≤ j)
    (h2 : j ≤ l.length) : spanCost l i j = blockCost (slice l i j) := by
  unfold spanCost blockCost
  rw [slice_length l h1 h2]

theorem costF_le_partCost (cbuf : List Nat) (m : Nat) (hmc : m ≤ cbuf.length) :
    ∀ p i, i ≤ m → p.flatten = slice cbuf i m → (∀ b ∈ p, b ≠ []) →
    costF cbuf m i ≤ partCost p := by
  intro p
  induction p with
  | nil =>
    intro i hi hflat _
    have : (slice cbuf i m).length = m - i := slice_length cbuf hi (by omega)
    rw [← hflat] at this
    simp only [List.flatten_nil, List.length_nil] at this
    have him : i = m := by omega
    subst him
    rw [costF_at_m cbuf i i (le_refl i)]
    exact Nat.zero_le _
  | cons b p ih =>
    intro i hi hflat hne
    have hbne : b ≠ [] := hne b (List.mem_cons_self b p)
    have hlenfl : b.length + p.flatten.length = m - i := by
      have h1 : (slice cbuf i m).length = m - i := slice_length cbuf hi (by omega)
      rw [← hflat] at h1
      simp only [List.flatten_cons, List.length_append] at h1
      omega
    have hbpos : 1 ≤ b.length := by
      match b, hbne with
      | x :: xs, _ => simp
    have hjm : i + b.length ≤ m := by omega
    have hsplit : slice cbuf i m = slice cbuf i (i + b.length) ++
        slice cbuf (i + b.length) m := slice_split cbuf (by omega) hjm
    have hlen1 : (slice cbuf i (i + b.length)).length = b.length :=
      by rw [slice_length cbuf (by omega) (by omega)]; omega
    have hinj : b = slice cbuf i (i + b.length) ∧
        p.flatten = slice cbuf (i + b.length) m := by
      have h0 : b ++ p.flatten = slice cbuf i (i + b.length) ++
          slice cbuf (i + b.length) m := by
        rw [← hsplit, ← hflat]
        simp
      exact List.append_inj h0 (by omega)
    have hcand := costF_le_cand cbuf m (show i < m by omega)
      (show i < i + b.length by omega) hjm
    have hsc : spanCost cbuf i (i + b.length) = blockCost b := by
      rw [spanCost_eq_blockCost cbuf (by omega) (by omega), ← hinj.1]
    have hrest := ih (i + b.length) hjm hinj.2 (fun x hx => hne x (List.mem_cons_of_mem b hx))
    have hpc : partCost (b :: p) = blockCost b + partCost p := by
      unfold partCost
      simp
    omega

theorem costF_attained (cbuf : List Nat) (m : Nat) (hmc : m ≤ cbuf.length)
    (hM : m < USIZE_MAX) :
    ∀ k i, m - i ≤ k → i ≤ m →
    ∃ p : List (List Nat), p.flatten = slice cbuf i m ∧ (∀ b ∈ p, b ≠ []) ∧
      partCost p = costF cbuf m i := by
  intro k
  induction k with
  | zero =>
    intro i hk hi
    have him : i = m := by omega
    subst him
    refine ⟨[], ?_, by simp, ?_⟩
    · unfold slice
      rw [Nat.sub_self]
      simp
    · rw [costF_at_m cbuf i i (le_refl i)]
      rfl
  | succ k ih =>
    intro i hk hi
    rcases Nat.eq_or_lt_of_le hi with him | him
    · subst him
      refine ⟨[], ?_, by simp, ?_⟩
      · unfold slice
        rw [Nat.sub_self]
        simp
      · rw [costF_at_m cbuf i i (le_refl i)]
        rfl
    · obtain ⟨h1, h2, h3, _⟩ := btF_spec cbuf m i him hM
      obtain ⟨p', hp1, hp2, hp3⟩ := ih (btF cbuf m i) (by omega) h2
      refine ⟨slice cbuf i (btF cbuf m i) :: p', ?_, ?_, ?_⟩
      · simp only [List.flatten_cons, hp1]
        rw [← slice_split cbuf (le_of_lt h1) (by omega)]
      · intro x hx
        rcases List.mem_cons.mp hx with hx | hx
        · subst hx
          intro he
          have := slice_length cbuf (le_of_lt h1) (le_trans h2 hmc)
          rw [he] at this
          simp at this
          omega
        · exact hp2 x hx
      · have hpc : partCost (slice cbuf i (btF cbuf m i) :: p') =
            blockCost (slice cbuf i (btF cbuf m i)) + partCost p' := by
          unfold partCost
          simp
        rw [hpc, hp3, ← spanCost_eq_blockCost cbuf (le_of_lt h1) (le_trans h2 hmc), h3]

/-- Claim C4: after the backward DP loop, `cost[i]` (for `0 ≤ i ≤ m`,
`m ≤ cbuf.len()`, on a buffer a 64-bit process can hold) is exactly the
minimum over all partitions of `cbuf[i..m]` into consecutive nonempty
blocks of the total block cost (0 for a valid-UTF-8 block, its byte length
otherwise): it is a lower bound of every partition's cost and is attained
by one; and `cost[m] = 0`. -/
theorem c4_cost_optimal (cbuf : List Nat) (m i : Nat) (hi : i ≤ m)
    (hmc : m ≤ cbuf.length) (hM : m < USIZE_MAX) :
    costF cbuf m m = 0 ∧
    (∀ p : List (List Nat), p.flatten = slice cbuf i m → (∀ b ∈ p, b ≠ []) →
      costF cbuf m i ≤ partCost p) ∧
    (∃ p : List (List Nat), p.flatten = slice cbuf i m ∧ (∀ b ∈ p, b ≠ []) ∧
      partCost p = costF cbuf m i) :=
  ⟨costF_at_m cbuf m m (le_refl m),
   fun p hp hne => costF_le_partCost cbuf m hmc p i hi hp hne,
   costF_attained cbuf m hmc hM (m - i) i (le_refl _) hi⟩

theorem c4_cost_optimal_witness :
    (1 ≤ 3 ∧ 3 ≤ ([97, 0xE4, 0xBD] : List Nat).length ∧ 3 < USIZE_MAX) ∧
    (costF [97, 0xE4, 0xBD] 3 3 = 0 ∧
    (∀ p : List (List Nat), p.flatten = slice [97, 0xE4, 0xBD] 1 3 →
      (∀ b ∈ p, b ≠ []) → costF [97, 0xE4, 0xBD] 3 1 ≤ partCost p) ∧
    (∃ p : List (List Nat), p.flatten = slice [97, 0xE4, 0xBD] 1 3 ∧
      (∀ b ∈ p, b ≠ []) ∧ partCost p = costF [97, 0xE4, 0xBD] 3 1)) :=
  ⟨⟨by decide, by decide, by decide⟩,
   c4_cost_optimal [97, 0xE4, 0xBD] 3 1 (by decide) (by decide) (by decide)⟩

/-! ### Claim C7: `fill_buf` -/

/-- Big-step behaviour of the `fill_buf` loop on a source: either the
requested range is already empty (no read happens), or the very first read
returns zero bytes (end-of-stream: the loop stops at once, delivering the
bytes obtained so far — the source is left exactly in its post-zero-read
state and is never queried again), or a nonempty read is followed by a
recursive fill of the remaining capacity. -/
inductive FillR : Source → Nat → List Nat → Bool → Source → Prop
  | done (s : Source) : FillR s 0 [] true s
  | eof (s s' : Source) (cap : Nat) (h0 : 0 < cap)
      (hr : srcRead s cap = ([], s')) : FillR s cap [] false s'
  | step (s s1 s2 : Source) (cap : Nat) (b : Nat) (bs rest : List Nat) (ok : Bool)
      (h0 : 0 < cap) (hr : srcRead s cap = (b :: bs, s1))
      (hrec : FillR s1 (cap - (b :: bs).length) rest ok s2) :
      FillR s cap (b :: (bs ++ rest)) ok s2

theorem fillGo_succ (fuel : Nat) (s : Source) (need : Nat) :
    fillGo (fuel + 1) s (need + 1) =
      match (srcRead s (need + 1)).1 with
      | [] => ([], false, (srcRead s (need + 1)).2)
      | b :: bs =>
        (b :: (bs ++ (fillGo fuel (srcRead s (need + 1)).2
            (need + 1 - (b :: bs).length)).1),
         (fillGo fuel (srcRead s (need + 1)).2 (need + 1 - (b :: bs).length)).2.1,
         (fillGo fuel (srcRead s (need + 1)).2 (need + 1 - (b :: bs).length)).2.2) := rfl

theorem srcRead_le (s : Source) (cap : Nat) : (srcRead s cap).1.length ≤ cap := by
  unfold srcRead
  simp only [List.length_take]
  omega

theorem srcRead_data (s : Source) (cap : Nat) :
    (srcRead s cap).1 ++ (srcRead s cap).2.data = s.data := by
  unfold srcRead
  simp

theorem fillGo_spec : ∀ (fuel : Nat) (s : Source) (need : Nat), need ≤ fuel →
    FillR s need (fillGo fuel s need).1 (fillGo fuel s need).2.1
      (fillGo fuel s need).2.2 ∧
    ((fillGo fuel s need).2.1 = true ↔ (fillGo fuel s need).1.length = need) ∧
    ((fillGo fuel s need).2.1 = false → (fillGo fuel s need).1.length < need) := by
  intro fuel
  induction fuel with
  | zero =>
    intro s need hle
    have h0 : need = 0 := by omega
    subst h0
    exact ⟨FillR.done s, by simp [fillGo], by simp [fillGo]⟩
  | succ fuel ih =>
    intro s need hle
    match need with
    | 0 => exact ⟨FillR.done s, by simp [fillGo], by simp [fillGo]⟩
    | n + 1 =>
      rw [fillGo_succ]
      rcases hr : (srcRead s (n + 1)).1 with _ | ⟨b, bs⟩
      · simp only
        refine ⟨FillR.eof s _ (n + 1) (by omega) ?_, by simp, by simp⟩
        rw [← hr]
      · simp only
        have hlen := srcRead_le s (n + 1)
        rw [hr] at hlen
        simp only [List.length_cons] at hlen
        have hrec := ih (srcRead s (n + 1)).2 (n + 1 - (b :: bs).length)
          (by simp only [List.length_cons]; omega)
        refine ⟨FillR.step s _ _ (n + 1) b bs _ _ (by omega) ?_ hrec.1, ?_, ?_⟩
        · rw [← hr]
        · constructor
          · intro h
            have := (hrec.2.1).mp h
            simp only [List.length_cons] at this hlen
            simp only [List.length_cons, List.length_append]
            omega
          · intro h
            apply (hrec.2.1).mpr
            simp only [List.length_cons, List.length_append] at h
            simp only [List.length_cons] at hlen ⊢
            omega
        · intro h
          have := hrec.2.2 h
          simp only [List.length_cons, List.length_append]
          simp only [List.length_cons] at this hlen
          omega

/-- Bytes delivered by the fill loop are exactly the bytes removed from the
front of the source's stream. -/
theorem fillGo_data : ∀ (fuel : Nat) (s : Source) (need : Nat),
    (fillGo fuel s need).1 ++ (fillGo fuel s need).2.2.data = s.data := by
  intro fuel
  induction fuel with
  | zero =>
    intro s need
    match need with
    | 0 => simp [fillGo]
    | n + 1 => simp [fillGo]
  | succ fuel ih =>
    intro s need
    match need with
    | 0 => simp [fillGo]
    | n + 1 =>
      rw [fillGo_succ]
      rcases hr : (srcRead s (n + 1)).1 with _ | ⟨b, bs⟩
      · simp only [List.nil_append]
        have := srcRead_data s (n + 1)
        rw [hr] at this
        simpa using this
      · simp only
        have h1 := ih (srcRead s (n + 1)).2 (n + 1 - (b :: bs).length)
        have h2 := srcRead_data s (n + 1)
        rw [hr] at h2
        rw [← h2]
        simp only [List.cons_append, List.append_assoc, h1]

/-- Claim C7: `fill_buf` returns `Ok` exactly when the destination range is
completely filled; otherwise it returns the count of bytes obtained before
the first zero-length read, which is strictly short of the range, and — per
the `FillR` derivation — the loop stops at that zero-length read without
querying the source again (the returned source state is the post-zero-read
state). -/
theorem c7_fill_buf (src : Source) (cap : Nat) :
    FillR src cap (fillBuf src cap).1 (fillBuf src cap).2.1
      (fillBuf src cap).2.2 ∧
    ((fillBuf src cap).2.1 = true ↔ (fillBuf src cap).1.length = cap) ∧
    ((fillBuf src cap).2.1 = false → (fillBuf src cap).1.length < cap) :=
  fillGo_spec cap src cap (le_refl cap)

/-! ### The ASCII filter keeps only safe bytes -/

theorem filterAscii_cons_eq (b : Nat) (rest : List Nat) :
    filterAscii (b :: rest) =
      if b < 0x80 then
        (if asciiKeep b then b :: filterAscii rest else filterAscii rest)
      else if b < 0xE0 then
        match rest with
        | [] => []
        | _ :: r => filterAscii r
      else if b < 0xF0 then
        match rest with
        | _ :: _ :: r => filterAscii r
        | _ => []
      else
        match rest with
        | _ :: _ :: _ :: r => filterAscii r
        | _ => [] := by
  match rest with
  | [] => rfl
  | [x] => rfl
  | [x, y] => rfl
  | x :: y :: z :: r => rfl

theorem filterAscii_keep : ∀ (n : Nat) (l : List Nat), l.length ≤ n →
    ∀ b ∈ filterAscii l, asciiKeep b = true := by
  intro n
  induction n with
  | zero =>
    intro l hl b hb
    have : l = [] := List.length_eq_zero.mp (by omega)
    subst this
    rw [show filterAscii [] = [] from rfl] at hb
    simp at hb
  | succ n ih =>
    intro l hl b hb
    match l with
    | [] =>
      rw [show filterAscii [] = [] from rfl] at hb
      simp at hb
    | a :: rest =>
      rw [filterAscii_cons_eq] at hb
      simp only [List.length_cons] at hl
      split_ifs at hb with h1 h2 h3 h4
      · simp only [List.mem_cons] at hb
        rcases hb with hb | hb
        · subst hb; exact h2
        · exact ih rest (by omega) b hb
      · exact ih rest (by omega) b hb
      · match rest, hb with
        | [], hb => simp at hb
        | _ :: r, hb => exact ih r (by simp at hl ⊢; omega) b hb
      · match rest, hb with
        | [], hb => simp at hb
        | [_], hb => simp at hb
        | _ :: _ :: r, hb => exact ih r (by simp at hl ⊢; omega) b hb
      · match rest, hb with
        | [], hb => simp at hb
        | [_], hb => simp at hb
        | [_, _], hb => simp at hb
        | _ :: _ :: _ :: r, hb => exact ih r (by simp at hl ⊢; omega) b hb

/-! ### Claim C2: only valid spans, all of them substrings of the input -/

theorem slice_sandwich (l : List Nat) (a b : Nat) :
    l.take a ++ slice l a b ++ (l.drop a).drop (b - a) = l := by
  unfold slice
  rw [List.append_assoc, List.take_append_drop, List.take_append_drop]

theorem flatten_valid : ∀ sp : List (List Nat),
    (∀ s ∈ sp, validUtf8 s = true) → validUtf8 sp.flatten = true := by
  intro sp
  induction sp with
  | nil => intro _; rfl
  | cons s sp ih =>
    intro h
    simp only [List.flatten_cons]
    exact validUtf8_append_valid (h s (List.mem_cons_self s sp))
      (ih (fun x hx => h x (List.mem_cons_of_mem s hx)))

theorem bfLoop_succ (bufSize fuel tl : Nat) (live : List Nat) (src : Source) :
    bfLoop bufSize (fuel + 1) tl live src =
      if live.length = 0 then ([], [])
      else
        let r := takeFromBuffer live live.length tl
        let carry := live.drop r.1
        let f := fillBuf src (bufSize - carry.length)
        let live' := carry ++ f.1
        let tl' := if f.2.1 then tl else live'.length
        let rest := bfLoop bufSize fuel tl' live' f.2.2
        (r.2 ++ rest.1, rest.2) := rfl

theorem bfLoop_spans (bufSize : Nat) : ∀ (fuel tl : Nat) (live : List Nat)
    (src : Source), ∀ s ∈ (bfLoop bufSize fuel tl live src).1,
    validUtf8 s = true ∧ ∃ u v, u ++ s ++ v = live ++ src.data := by
  intro fuel
  induction fuel with
  | zero => intro tl live src s hs; simp [bfLoop] at hs
  | succ fuel ih =>
    intro tl live src s hs
    rw [bfLoop_succ] at hs
    by_cases h0 : live.length = 0
    · rw [if_pos h0] at hs
      simp at hs
    · rw [if_neg h0] at hs
      simp only [List.mem_append] at hs
      rcases hs with hs | hs
      · obtain ⟨hval, a, b, hab⟩ := walk_spans live live.length tl (live.length + 1) 0 s hs
        refine ⟨hval, live.take a, (live.drop a).drop (b - a) ++ src.data, ?_⟩
        subst hab
        rw [show live.take a ++ slice live a b ++ ((live.drop a).drop (b - a) ++ src.data)
            = (live.take a ++ slice live a b ++ (live.drop a).drop (b - a)) ++ src.data from by
          simp [List.append_assoc]]
        rw [slice_sandwich]
      · set r := takeFromBuffer live live.length tl with hr
        set carry := live.drop r.1 with hcarry
        set f := fillBuf src (bufSize - carry.length) with hf
        obtain ⟨hval, u', v', huv⟩ := ih _ (carry ++ f.1) f.2.2 s hs
        refine ⟨hval, live.take r.1 ++ u', v', ?_⟩
        have hdata : f.1 ++ f.2.2.data = src.data := fillGo_data _ src _
        calc (live.take r.1 ++ u') ++ s ++ v'
            = live.take r.1 ++ (u' ++ s ++ v') := by simp [List.append_assoc]
          _ = live.take r.1 ++ ((carry ++ f.1) ++ f.2.2.data) := by rw [huv]
          _ = live.take r.1 ++ (carry ++ (f.1 ++ f.2.2.data)) := by
              simp [List.append_assoc]
          _ = live.take r.1 ++ (live.drop r.1 ++ src.data) := by rw [hdata, hcarry]
          _ = live ++ src.data := by rw [← List.append_assoc, List.take_append_drop]

/-- Claim C2: every span `buffer_filter` writes is valid UTF-8 and occurs
as a contiguous substring of the input stream; the concatenation of
everything written is valid UTF-8, and remains so after `FilterWriter` in
either mode.  (Invalid spans are consumed but never written.) -/
theorem c2_validity (bufSize tl : Nat) (src : Source) :
    (∀ s ∈ (bufferFilter bufSize tl src).1,
      validUtf8 s = true ∧ ∃ u v, u ++ s ++ v = src.data) ∧
    validUtf8 (bufferFilter bufSize tl src).1.flatten = true ∧
    ∀ ascii, validUtf8 (((bufferFilter bufSize tl src).1.map
      (filterWrite ascii)).flatten) = true := by
  have hmain : ∀ s ∈ (bufferFilter bufSize tl src).1,
      validUtf8 s = true ∧ ∃ u v, u ++ s ++ v = src.data := by
    intro s hs
    unfold bufferFilter at hs
    obtain ⟨hval, u, v, huv⟩ := bfLoop_spans bufSize _ _ _ _ s hs
    refine ⟨hval, u, v, ?_⟩
    rw [huv]
    exact fillGo_data bufSize src bufSize
  refine ⟨hmain, flatten_valid _ (fun s hs => (hmain s hs).1), fun ascii => ?_⟩
  cases ascii
  · have hid : filterWrite false = id := funext (fun s => rfl)
    rw [hid, List.map_id]
    exact flatten_valid _ (fun s hs => (hmain s hs).1)
  · apply validUtf8_all_ascii
    intro b hb
    simp only [List.mem_flatten, List.mem_map] at hb
    obtain ⟨l, ⟨s, _, hls⟩, hbl⟩ := hb
    subst hls
    simp only [filterWrite, if_pos rfl] at hbl
    have := filterAscii_keep s.length s (le_refl _) b hbl
    simp only [asciiKeep, decide_eq_true_eq] at this
    omega

/-! ### Claim C5: the ASCII-only write filter -/

/-- Claim C5: under the writer's precondition (the slice is valid UTF-8),
in ASCII-only mode every emitted byte lies in `{0x09, 0x0A} ∪ [0x20, 0x7E]`
(that is, `asciiKeep`); a character of encoded length greater than 1
contributes zero output bytes; a single-byte character outside the safe set
is dropped, one inside it is emitted; with `ascii_only` false the slice
passes through unchanged. -/
theorem c5_ascii_filter (buf : List Nat) (hv : validUtf8 buf = true) :
    (∀ b ∈ filterWrite true buf, asciiKeep b = true) ∧
    (∀ c rest, oneCharB c = true → 2 ≤ c.length →
      filterAscii (c ++ rest) = filterAscii rest) ∧
    (∀ b rest, b < 0x80 → asciiKeep b = false →
      filterAscii (b :: rest) = filterAscii rest) ∧
    (∀ b rest, b < 0x80 → asciiKeep b = true →
      filterAscii (b :: rest) = b :: filterAscii rest) ∧
    filterWrite false buf = buf := by
  refine ⟨?_, ?_, ?_, ?_, rfl⟩
  · intro b hb
    rw [show filterWrite true buf = filterAscii buf from rfl] at hb
    exact filterAscii_keep buf.length buf (le_refl _) b hb
  · intro c rest hc hlen
    match c, hc, hlen with
    | [b], _, hlen => simp at hlen
    | [b, b1], hc, _ =>
      simp only [oneCharB, Bool.and_eq_true, decide_eq_true_eq] at hc
      obtain ⟨⟨hb1, hb2⟩, _⟩ := hc
      simp only [List.cons_append, List.nil_append]
      rw [filterAscii_cons_eq]
      rw [if_neg (by omega), if_pos (by omega)]
    | [b, b1, b2], hc, _ =>
      simp only [oneCharB, Bool.and_eq_true, decide_eq_true_eq] at hc
      obtain ⟨⟨⟨hb1, hb2⟩, _⟩, _⟩ := hc
      simp only [List.cons_append, List.nil_append]
      rw [filterAscii_cons_eq]
      rw [if_neg (by omega), if_neg (by omega), if_pos (by omega)]
    | [b, b1, b2, b3], hc, _ =>
      simp only [oneCharB, Bool.and_eq_true, decide_eq_true_eq] at hc
      obtain ⟨⟨⟨⟨hb1, hb2⟩, _⟩, _⟩, _⟩ := hc
      simp only [List.cons_append, List.nil_append]
      rw [filterAscii_cons_eq]
      rw [if_neg (by omega), if_neg (by omega), if_neg (by omega)]
  · intro b rest h1 h2
    rw [filterAscii_cons_eq, if_pos h1, if_neg (by simp [h2])]
  · intro b rest h1 h2
    rw [filterAscii_cons_eq, if_pos h1, if_pos h2]

theorem c5_ascii_filter_witness :
    validUtf8 [97, 98, 99, 0xE4, 0xBD, 0xA0, 0xE5, 0xA5, 0xBD, 32, 119, 111, 114] = true ∧
    ((∀ b ∈ filterWrite true [97, 98, 99, 0xE4, 0xBD, 0xA0, 0xE5, 0xA5, 0xBD, 32, 119, 111, 114],
        asciiKeep b = true) ∧
     (∀ c rest, oneCharB c = true → 2 ≤ c.length →
       filterAscii (c ++ rest) = filterAscii rest) ∧
     (∀ b rest, b < 0x80 → asciiKeep b = false →
       filterAscii (b :: rest) = filterAscii rest) ∧
     (∀ b rest, b < 0x80 → asciiKeep b = true →
       filterAscii (b :: rest) = b :: filterAscii rest) ∧
     filterWrite false [97, 98, 99, 0xE4, 0xBD, 0xA0, 0xE5, 0xA5, 0xBD, 32, 119, 111, 114] =
       [97, 98, 99, 0xE4, 0xBD, 0xA0, 0xE5, 0xA5, 0xBD, 32, 119, 111, 114]) :=
  ⟨by decide,
   c5_ascii_filter [97, 98, 99, 0xE4, 0xBD, 0xA0, 0xE5, 0xA5, 0xBD, 32, 119, 111, 114]
     (by decide)⟩

/-! ### Claim C1: splitting of multi-byte characters at the lookahead bound -/

theorem headD_take {l : List Nat} {k : Nat} (hk : 1 ≤ k) :
    (l.take k).headD 0 = l.headD 0 := by
  match l, k, hk with
  | [], _, _ => simp
  | a :: l', k' + 1, _ => simp

/-- A chosen span that starts at or before an interior point `p` and ends
strictly past it is never an invalid span: ending at `p` instead would be
at least as cheap and earlier, and the scan keeps the first argmin. -/
theorem btF_no_invalid_cross (cbuf : List Nat) (m : Nat) (hM : m < USIZE_MAX)
    {x p : Nat} (hx : x < p) (hxm : x < m) (hpj : p < btF cbuf m x) :
    validUtf8 (slice cbuf x (btF cbuf m x)) = true := by
  by_contra hinv
  obtain ⟨h1, h2, h3, h4⟩ := btF_spec cbuf m x hxm hM
  have hpm : p < m := by omega
  have hc1 := costF_le_cand cbuf m hpm hpj h2
  have hsc : spanCost cbuf x (btF cbuf m x) = btF cbuf m x - x := by
    unfold spanCost
    rw [if_neg]
    simpa using hinv
  have hple : spanCost cbuf x p ≤ p - x := by
    unfold spanCost
    split <;> omega
  have hspj : spanCost cbuf p (btF cbuf m x) ≤ btF cbuf m x - p := by
    unfold spanCost
    split <;> omega
  have hfirst := h4 p hx hpj
  omega

/-- A valid span `cbuf[x..j]` that covers the start `p` of a multi-byte
character present in the buffer contains that character in full: validity
forces `j ≥ p + len`, and the span splits as `prefix ++ c ++ suffix`. -/
theorem valid_span_contains_char (cbuf c : List Nat) {m p x j : Nat}
    (hc : oneCharB c = true) (hL : 2 ≤ c.length)
    (hp : p < m) (hmc : m ≤ cbuf.length)
    (harr : slice cbuf p (min (p + c.length) m) =
      c.take (min (p + c.length) m - p))
    (hx : x ≤ p) (hj : p < j) (hjm : j ≤ m)
    (hval : validUtf8 (slice cbuf x j) = true) :
    p + c.length ≤ j ∧ ∃ u v, slice cbuf x j = u ++ c ++ v := by
  have hminp : p + 1 ≤ min (p + c.length) m := by omega
  have hsplit : slice cbuf x j = slice cbuf x p ++ slice cbuf p j :=
    slice_split cbuf hx (by omega)
  -- the head byte of the in-buffer character bytes is the lead byte of `c`
  have hwhead : (slice cbuf p j).headD 0 = c.headD 0 := by
    have e1 : (slice cbuf p j).headD 0 = (cbuf.drop p).headD 0 := by
      unfold slice
      exact headD_take (by omega)
    have e2 : (slice cbuf p (min (p + c.length) m)).headD 0 = (cbuf.drop p).headD 0 := by
      unfold slice
      exact headD_take (by omega)
    have e3 : (c.take (min (p + c.length) m - p)).headD 0 = c.headD 0 :=
      headD_take (by omega)
    rw [e1, ← e2, harr, e3]
  have hnc : contB ((slice cbuf p j).headD 0) = false := by
    rw [hwhead]
    exact oneCharB_multibyte_head hc hL
  obtain ⟨hvu, hvw⟩ := validUtf8_split _ _ (hsplit ▸ hval) hnc
  -- the span cannot end inside the character
  have hjL : p + c.length ≤ j := by
    by_contra hjlt
    have hjmin : j ≤ min (p + c.length) m := by omega
    have hw : slice cbuf p j = c.take (j - p) := by
      have h1 : slice cbuf p j = (slice cbuf p (min (p + c.length) m)).take (j - p) := by
        unfold slice
        rw [List.take_take]
        rw [show min (j - p) (min (p + c.length) m - p) = j - p from by omega]
      rw [h1, harr, List.take_take]
      rw [show min (j - p) (min (p + c.length) m - p) = j - p from by omega]
    have hinv := oneCharB_take_invalid hc (j - p) (by omega) (by omega)
    rw [← hw] at hinv
    rw [hvw] at hinv
    exact absurd hinv (by simp)
  refine ⟨hjL, slice cbuf x p, (slice cbuf p j).drop c.length, ?_⟩
  -- `slice cbuf p j` starts with exactly `c`
  have hminL : min (p + c.length) m = p + c.length := by omega
  have harr' : slice cbuf p (p + c.length) = c := by
    rw [hminL] at harr
    rw [harr]
    rw [show p + c.length - p = c.length from by omega, List.take_length]
  have htakeL : (slice cbuf p j).take c.length = c := by
    have h1 : (slice cbuf p j).take c.length = slice cbuf p (p + c.length) := by
      unfold slice
      rw [List.take_take]
      rw [show min c.length (j - p) = c.length from by omega]
      rw [show p + c.length - p = c.length from by omega]
    rw [h1, harr']
  obtain ⟨hdec, _⟩ := validUtf8_take_char (slice cbuf p j) c hvw hc htakeL
  rw [hsplit]
  rw [hdec]
  simp [List.append_assoc]

/-- The walk, started at or before the character position `p` with
`taken_limit < p`, either stays at or before `p` (all the character's bytes
are left in the buffer) or writes some valid span containing the character
in full. -/
theorem walk_no_split (cbuf c : List Nat) (m tl p : Nat) (hM : m < USIZE_MAX)
    (hmc : m ≤ cbuf.length) (hp : p < m) (htl : tl < p)
    (hc : oneCharB c = true) (hL : 2 ≤ c.length)
    (harr : slice cbuf p (min (p + c.length) m) =
      c.take (min (p + c.length) m - p)) :
    ∀ fuel i, i ≤ p → m - i < fuel →
    (walkLoop cbuf m tl (btF cbuf m) (vtF cbuf m) fuel i).1 ≤ p ∨
    ∃ s ∈ (walkLoop cbuf m tl (btF cbuf m) (vtF cbuf m) fuel i).2,
      ∃ u v, s = u ++ c ++ v := by
  intro fuel
  induction fuel with
  | zero => intro i hip hf; omega
  | succ fuel ih =>
    intro i hip hf
    by_cases hcond : i ≤ tl ∧ i < m
    · have hprog := btF_progress cbuf m i hcond.2 hM
      by_cases hjp : btF cbuf m i ≤ p
      · rcases ih (btF cbuf m i) hjp (by omega) with hleft | ⟨s, hs, u, v, huv⟩
        · refine Or.inl ?_
          rw [walkLoop_succ_fst, if_pos hcond]
          exact hleft
        · refine Or.inr ⟨s, ?_, u, v, huv⟩
          rw [walkLoop_succ_snd, if_pos hcond]
          exact List.mem_append_right _ hs
      · -- the span crosses `p`: it must be valid, hence written, and it
        -- contains the character in full
        have hipi : i < p := by omega
        have hval := btF_no_invalid_cross cbuf m hM hipi hcond.2 (by omega)
        have hvt : vtF cbuf m (tri m i (btF cbuf m i)) = true := by
          rw [vtF_get cbuf m hprog.1 hprog.2]
          exact hval
        obtain ⟨_, u, v, huv⟩ := valid_span_contains_char cbuf c hc hL hp hmc harr
          (le_of_lt hipi) (by omega) hprog.2 hval
        refine Or.inr ⟨slice cbuf i (btF cbuf m i), ?_, u, v, huv⟩
        rw [walkLoop_succ_snd, if_pos hcond, if_pos hvt]
        exact List.mem_append_left _ (List.mem_singleton.mpr rfl)
    · refine Or.inl ?_
      rw [walkLoop_succ_fst, if_neg hcond]
      exact hip

/-- Claim C1 counterexample: buffer size `B = 4`, input
`"ab" ++ "你" = [97, 98, 0xE4, 0xBD, 0xA0]`.  The first round is fully
refilled (`m = 4`, `taken_limit = 2`) and the valid three-byte character
starts at buffer position `2 = B/2`.  The claim says the character is never
split and is emitted in full in a later round; in fact round one takes
3 bytes writing only `"a"`, `"b"` — the character's first byte is consumed
inside a discarded invalid span — and the whole run outputs just
`[97, 98]`: the character is dropped. -/
theorem c1_counterexample :
    validUtf8 [0xE4, 0xBD, 0xA0] = true ∧
    takeFromBuffer [97, 98, 0xE4, 0xBD] 4 2 = (3, [[97], [98]]) ∧
    pipeOut 4 false ⟨[97, 98, 0xE4, 0xBD, 0xA0], []⟩ = [97, 98] :=
  ⟨by decide, by decide, by decide⟩

/-- Claim C1 (amended): when the first byte of the multi-byte character
lands STRICTLY past `taken_limit` (position `p > taken_limit`, e.g.
`p > B/2` in a fully-refilled round), that round never splits the
character: either the returned `taken` is at most `p` — every byte of the
character stays in the buffer for later rounds, none is consumed in a
discarded span — or the round writes a valid span containing the character
in full.  (At `p = taken_limit` exactly, and across later rounds for small
buffers, the original claim fails: see the counterexample, and spec §6's
own warning that small buffers can starve multi-byte characters.) -/
theorem c1_no_split_amended (cbuf c : List Nat) (m tl p : Nat)
    (hM : m < USIZE_MAX) (hmc : m ≤ cbuf.length) (hp : p < m) (htl : tl < p)
    (hc : oneCharB c = true) (hL : 2 ≤ c.length)
    (harr : slice cbuf p (min (p + c.length) m) =
      c.take (min (p + c.length) m - p)) :
    (takeFromBuffer cbuf m tl).1 ≤ p ∨
    ∃ s ∈ (takeFromBuffer cbuf m tl).2, ∃ u v, s = u ++ c ++ v :=
  walk_no_split cbuf c m tl p hM hmc hp htl hc hL harr (m + 1) 0
    (by omega) (by omega)

theorem c1_no_split_amended_witness :
    (4 < USIZE_MAX ∧ 4 ≤ ([0xFF, 0xFF, 0xFF, 0xE4] : List Nat).length ∧ 3 < 4 ∧ 2 < 3 ∧
     oneCharB [0xE4, 0xBD, 0xA0] = true ∧ 2 ≤ ([0xE4, 0xBD, 0xA0] : List Nat).length ∧
     slice [0xFF, 0xFF, 0xFF, 0xE4] 3 (min (3 + 3) 4) =
       List.take (min (3 + 3) 4 - 3) [0xE4, 0xBD, 0xA0]) ∧
    ((takeFromBuffer [0xFF, 0xFF, 0xFF, 0xE4] 4 2).1 ≤ 3 ∨
     ∃ s ∈ (takeFromBuffer [0xFF, 0xFF, 0xFF, 0xE4] 4 2).2,
       ∃ u v, s = u ++ [0xE4, 0xBD, 0xA0] ++ v) :=
  ⟨⟨by decide, by decide, by decide, by decide, by decide, by decide, by decide⟩,
   c1_no_split_amended [0xFF, 0xFF, 0xFF, 0xE4] [0xE4, 0xBD, 0xA0] 4 2 3
     (by decide) (by decide) (by decide) (by decide) (by decide) (by decide) (by decide)⟩

/-! ### Claim C8: termination and final flush -/

theorem fillBuf_len_le (s : Source) (cap : Nat) :
    (fillBuf s cap).1.length ≤ cap := by
  obtain ⟨_, hiff, hlt⟩ := fillGo_spec cap s cap (le_refl cap)
  cases hok : (fillBuf s cap).2.1
  · exact le_of_lt (hlt hok)
  · exact le_of_eq (hiff.mp hok)

theorem fillGo_data_len (fuel : Nat) (s : Source) (need : Nat) :
    (fillGo fuel s need).1.length + (fillGo fuel s need).2.2.data.length =
      s.data.length := by
  have := fillGo_data fuel s need
  have hl := congrArg List.length this
  simpa using hl

theorem srcRead_len_eq (s : Source) (cap : Nat) :
    (srcRead s cap).1.length =
      min cap (min (match s.schedule with | [] => cap | c :: _ => c) s.data.length) := by
  unfold srcRead
  simp [List.length_take]

/-- On a source whose scheduled reads are all positive (a read returns zero
bytes only at true end-of-stream), a fill of capacity exceeding the
remaining stream consumes the whole stream and reports a short read. -/
theorem fillGo_all : ∀ (fuel : Nat) (s : Source) (need : Nat),
    (∀ e ∈ s.schedule, 0 < e) → s.data.length < need → need ≤ fuel →
    (fillGo fuel s need).2.1 = false ∧ (fillGo fuel s need).2.2.data = [] := by
  intro fuel
  induction fuel with
  | zero => intro s need _ h1 h2; omega
  | succ fuel ih =>
    intro s need hps h1 h2
    match need, h1 with
    | n + 1, h1 =>
      rw [fillGo_succ]
      rcases hd : s.data with _ | ⟨d, ds⟩
      · have hr1 : (srcRead s (n + 1)).1 = [] := by
          unfold srcRead
          rw [hd]
          simp
        rw [hr1]
        refine ⟨rfl, ?_⟩
        unfold srcRead
        rw [hd]
        simp
      · have hk : 1 ≤ (srcRead s (n + 1)).1.length := by
          rw [srcRead_len_eq, hd]
          rcases hsch : s.schedule with _ | ⟨e, es⟩
          · simp
          · have := hps e (by rw [hsch]; exact List.mem_cons_self e es)
            simp
            omega
        rcases hr : (srcRead s (n + 1)).1 with _ | ⟨b, bs⟩
        · rw [hr] at hk; simp at hk
        · simp only
          have hlen : (b :: bs).length ≤ n + 1 := by
            rw [← hr]; exact srcRead_le s (n + 1)
          have hdata : (srcRead s (n + 1)).2.data.length =
              s.data.length - (b :: bs).length := by
            have := srcRead_data s (n + 1)
            rw [hr] at this
            have hl := congrArg List.length this
            simp only [List.length_append] at hl
            omega
          have hsched : ∀ e ∈ (srcRead s (n + 1)).2.schedule, 0 < e := by
            intro e he
            apply hps
            have : (srcRead s (n + 1)).2.schedule = s.schedule.tail := by
              unfold srcRead
              simp
            rw [this] at he
            exact List.mem_of_mem_tail he
          have hkpos : 1 ≤ (b :: bs).length := by simp
          have hle2 : (b :: bs).length ≤ s.data.length := by
            have hsd := congrArg List.length (srcRead_data s (n + 1))
            rw [hr] at hsd
            simp only [List.length_append] at hsd
            omega
          exact ih (srcRead s (n + 1)).2 (n + 1 - (b :: bs).length) hsched
            (by omega) (by omega)

theorem fillBuf_all (s : Source) (cap : Nat) (hps : ∀ e ∈ s.schedule, 0 < e)
    (hlt : s.data.length < cap) :
    (fillBuf s cap).1 = s.data ∧ (fillBuf s cap).2.1 = false ∧
    (fillBuf s cap).2.2.data = [] := by
  obtain ⟨h1, h2⟩ := fillGo_all cap s cap hps hlt (le_refl cap)
  refine ⟨?_, h1, h2⟩
  have := fillGo_data cap s cap
  rw [h2] at this
  simpa using this

/-- When the whole remaining suffix has zero cost and `taken_limit` covers
the buffer, the walk consumes everything and writes, in order, spans that
concatenate to exactly the remaining bytes. -/
theorem walk_zero_cost (cbuf : List Nat) (m tl : Nat) (hM : m < USIZE_MAX)
    (htl : m ≤ tl) :
    ∀ fuel i, i ≤ m → m - i < fuel → costF cbuf m i = 0 →
    (walkLoop cbuf m tl (btF cbuf m) (vtF cbuf m) fuel i).1 = m ∧
    (walkLoop cbuf m tl (btF cbuf m) (vtF cbuf m) fuel i).2.flatten =
      slice cbuf i m := by
  intro fuel
  induction fuel with
  | zero => intro i h1 h2; omega
  | succ fuel ih =>
    intro i him hf hcost
    rcases Nat.eq_or_lt_of_le him with he | hlt
    · subst he
      have hcond : ¬(i ≤ tl ∧ i < i) := by omega
      constructor
      · rw [walkLoop_succ_fst, if_neg hcond]
      · rw [walkLoop_succ_snd, if_neg hcond]
        unfold slice
        rw [Nat.sub_self]
        simp
    · have hcond : i ≤ tl ∧ i < m := by omega
      obtain ⟨h1, h2, h3, _⟩ := btF_spec cbuf m i hlt hM
      have hzero : spanCost cbuf i (btF cbuf m i) = 0 ∧
          costF cbuf m (btF cbuf m i) = 0 := by omega
      have hvalid : validUtf8 (slice cbuf i (btF cbuf m i)) = true := by
        have := hzero.1
        unfold spanCost at this
        by_contra hcon
        rw [if_neg (by simpa using hcon)] at this
        omega
      have hvt : vtF cbuf m (tri m i (btF cbuf m i)) = true := by
        rw [vtF_get cbuf m h1 h2]
        exact hvalid
      have hih := ih (btF cbuf m i) h2 (by omega) hzero.2
      rw [walkLoop_succ_fst, if_pos hcond, walkLoop_succ_snd, if_pos hcond, if_pos hvt]
      refine ⟨hih.1, ?_⟩
      simp only [List.singleton_append, List.flatten_cons, hih.2]
      rw [← slice_split cbuf (le_of_lt h1) h2]

theorem bufferFilter_eq (bufSize tl : Nat) (src : Source) :
    bufferFilter bufSize tl src =
      bfLoop bufSize
        ((fillBuf src bufSize).2.2.data.length + (fillBuf src bufSize).1.length + 1)
        (if (fillBuf src bufSize).2.1 then tl else (fillBuf src bufSize).1.length)
        (fillBuf src bufSize).1 (fillBuf src bufSize).2.2 := rfl

/-- Spending at least one byte per round: the loop drains. -/
theorem bfLoop_drains (bufSize : Nat) (hB : bufSize < USIZE_MAX) :
    ∀ (fuel tl : Nat) (live : List Nat) (src : Source), live.length ≤ bufSize →
    src.data.length + live.length < fuel →
    (bfLoop bufSize fuel tl live src).2 = [] := by
  intro fuel
  induction fuel with
  | zero => intro tl live src h1 h2; omega
  | succ fuel ih =>
    intro tl live src hlen hf
    rw [bfLoop_succ]
    by_cases h0 : live.length = 0
    · rw [if_pos h0]
    · rw [if_neg h0]
      simp only
      set r := takeFromBuffer live live.length tl with hr
      set carry := live.drop r.1 with hcarry
      set f := fillBuf src (bufSize - carry.length) with hf2
      have htaken : 1 ≤ r.1 ∧ r.1 ≤ live.length := by
        have hw := walk_bounds live live.length tl (by omega) (live.length + 1) 0
          (by omega) (by omega)
        have hbr : r.1 = (walkLoop live live.length tl (btF live live.length)
            (vtF live live.length) (live.length + 1) 0).1 := rfl
        rw [hbr]
        rcases hw.2.2 with hc | hc
        · exact ⟨by omega, hw.2.1⟩
        · exact ⟨by omega, hw.2.1⟩
      have hcl : carry.length = live.length - r.1 := by
        rw [hcarry, List.length_drop]
      have hfl : f.1.length ≤ bufSize - carry.length := fillBuf_len_le src _
      have hfd : f.1.length + f.2.2.data.length = src.data.length :=
        fillGo_data_len _ src _
      apply ih
      · rw [List.length_append]
        omega
      · rw [List.length_append]
        omega

theorem bfLoop_nil (bufSize fuel tl : Nat) (src : Source) :
    bfLoop bufSize fuel tl [] src = ([], []) := by
  cases fuel
  · rfl
  · rw [bfLoop_succ]
    simp

/-- Claim C8: for every positive buffer size (that a 64-bit process can
index) and every finite source, `buffer_filter` terminates with the buffer
fully drained; and if the source is genuine (reads return zero bytes only
at end-of-stream), its whole stream is valid UTF-8 and shorter than the
buffer — the short-final-read scenario, including a multi-byte character
ending exactly at end-of-stream — then everything is flushed: the
concatenated output equals the input stream. -/
theorem c8_termination_flush (bufSize tl : Nat) (src : Source)
    (hB0 : 0 < bufSize) (hB : bufSize < USIZE_MAX) :
    (bufferFilter bufSize tl src).2 = [] ∧
    ((∀ e ∈ src.schedule, 0 < e) → validUtf8 src.data = true →
      src.data.length < bufSize →
      (bufferFilter bufSize tl src).1.flatten = src.data) := by
  constructor
  · unfold bufferFilter
    apply bfLoop_drains bufSize hB
    · exact fillBuf_len_le src bufSize
    · omega
  · intro hps hval hshort
    obtain ⟨hb1, hb2, hb3⟩ := fillBuf_all src bufSize hps hshort
    rw [bufferFilter_eq]
    rw [hb2, hb1, hb3]
    simp only [Bool.false_eq_true, if_false, List.length_nil, Nat.zero_add]
    by_cases hdn : src.data = []
    · rw [hdn]
      rfl
    · have hm0 : 0 < src.data.length := List.length_pos.mpr hdn
      have hm : src.data.length < USIZE_MAX := by omega
      have hcost : costF src.data src.data.length 0 = 0 := by
        have hle := costF_le_partCost src.data src.data.length (le_refl _)
          [src.data] 0 (by omega) ?_ ?_
        · have hbz : blockCost src.data = 0 := by
            unfold blockCost
            rw [if_pos hval]
          unfold partCost at hle
          simp only [List.map_cons, List.map_nil, List.sum_cons, List.sum_nil] at hle
          omega
        · simp only [List.flatten_cons, List.flatten_nil, List.append_nil]
          unfold slice
          simp
        · intro b hb
          simp only [List.mem_singleton] at hb
          subst hb
          exact hdn
      have hwalk := walk_zero_cost src.data src.data.length src.data.length hm
        (le_refl _) (src.data.length + 1) 0 (by omega) (by omega) hcost
      rw [bfLoop_succ]
      rw [if_neg (by omega)]
      simp only
      have htk : (takeFromBuffer src.data src.data.length src.data.length).1 =
          src.data.length := hwalk.1
      rw [htk]
      rw [List.drop_length]
      simp only [List.length_nil, Nat.sub_zero, List.nil_append]
      have hsched2 : ∀ e ∈ (fillBuf src bufSize).2.2.schedule, 0 < e := by
        intro e he
        apply hps
        have hsuffix : ∀ (fuel : Nat) (s : Source) (need : Nat),
            ∀ e ∈ (fillGo fuel s need).2.2.schedule, e ∈ s.schedule := by
          intro fuel
          induction fuel with
          | zero =>
            intro s need e' he'
            match need with
            | 0 => exact he'
            | _ + 1 => exact he'
          | succ fuel ihs =>
            intro s need e' he'
            match need with
            | 0 => exact he'
            | n + 1 =>
              rw [fillGo_succ] at he'
              have hsch : (srcRead s (n + 1)).2.schedule = s.schedule.tail := by
                unfold srcRead
                simp
              rcases hrr : (srcRead s (n + 1)).1 with _ | ⟨b, bs⟩
              · rw [hrr] at he'
                simp only at he'
                rw [hsch] at he'
                exact List.mem_of_mem_tail he'
              · rw [hrr] at he'
                simp only at he'
                have := ihs (srcRead s (n + 1)).2 (n + 1 - (b :: bs).length) e' he'
                rw [hsch] at this
                exact List.mem_of_mem_tail this
        exact hsuffix bufSize src bufSize e he
      obtain ⟨he1, he2, he3⟩ := fillBuf_all (fillBuf src bufSize).2.2 bufSize hsched2
        (by rw [hb3]; simpa using hB0)
      rw [hb3] at he1
      rw [he2, he1]
      simp only [Bool.false_eq_true, if_false, List.length_nil]
      rw [bfLoop_nil]
      simp only [List.append_nil]
      have hfl := hwalk.2
      have hbr : (takeFromBuffer src.data src.data.length src.data.length).2 =
          (walkLoop src.data src.data.length src.data.length
            (btF src.data src.data.length) (vtF src.data src.data.length)
            (src.data.length + 1) 0).2 := rfl
      rw [hbr, hfl]
      unfold slice
      simp

theorem c8_termination_flush_witness :
    (0 < 4 ∧ 4 < USIZE_MAX) ∧
    ((bufferFilter 4 2 ⟨[0xE4, 0xBD, 0xA0], []⟩).2 = [] ∧
     ((∀ e ∈ ([] : List Nat), 0 < e) → validUtf8 [0xE4, 0xBD, 0xA0] = true →
       ([0xE4, 0xBD, 0xA0] : List Nat).length < 4 →
       (bufferFilter 4 2 ⟨[0xE4, 0xBD, 0xA0], []⟩).1.flatten = [0xE4, 0xBD, 0xA0])) :=
  ⟨⟨by decide, by decide⟩, c8_termination_flush 4 2 ⟨[0xE4, 0xBD, 0xA0], []⟩
    (by decide) (by decide)⟩

/-! ### Claim C9: idempotence -/

theorem filterAscii_id_safe : ∀ s : List Nat, (∀ b ∈ s, asciiKeep b = true) →
    filterAscii s = s := by
  intro s
  induction s with
  | nil => intro _; rfl
  | cons a s ih =>
    intro h
    have ha := h a (List.mem_cons_self a s)
    have ha80 : a < 0x80 := by
      simp only [asciiKeep, decide_eq_true_eq] at ha
      omega
    rw [filterAscii_cons_eq, if_pos ha80, if_pos ha]
    rw [ih (fun b hb => h b (List.mem_cons_of_mem a hb))]

theorem slice_mem {l : List Nat} {x y b : Nat} (hb : b ∈ slice l x y) : b ∈ l :=
  List.mem_of_mem_drop (List.mem_of_mem_take hb)

/-- The schedule of the source left by a fill is a suffix of the original
schedule. -/
theorem fillGo_sched : ∀ (fuel : Nat) (s : Source) (need : Nat),
    ∀ e ∈ (fillGo fuel s need).2.2.schedule, e ∈ s.schedule := by
  intro fuel
  induction fuel with
  | zero =>
    intro s need e he
    match need with
    | 0 => exact he
    | _ + 1 => exact he
  | succ fuel ih =>
    intro s need e he
    match need with
    | 0 => exact he
    | n + 1 =>
      rw [fillGo_succ] at he
      have hsch : (srcRead s (n + 1)).2.schedule = s.schedule.tail := by
        unfold srcRead
        simp
      rcases hrr : (srcRead s (n + 1)).1 with _ | ⟨b, bs⟩
      · rw [hrr] at he
        simp only at he
        rw [hsch] at he
        exact List.mem_of_mem_tail he
      · rw [hrr] at he
        simp only at he
        have := ih (srcRead s (n + 1)).2 (n + 1 - (b :: bs).length) e he
        rw [hsch] at this
        exact List.mem_of_mem_tail this

/-- On a genuine source a fill whose capacity does not exceed the remaining
stream succeeds. -/
theorem fillGo_full : ∀ (fuel : Nat) (s : Source) (need : Nat),
    (∀ e ∈ s.schedule, 0 < e) → need ≤ s.data.length → need ≤ fuel →
    (fillGo fuel s need).2.1 = true := by
  intro fuel
  induction fuel with
  | zero =>
    intro s need _ _ h2
    have : need = 0 := by omega
    subst this
    rfl
  | succ fuel ih =>
    intro s need hps h1 h2
    match need with
    | 0 => rfl
    | n + 1 =>
      rw [fillGo_succ]
      have hk : 1 ≤ (srcRead s (n + 1)).1.length := by
        rw [srcRead_len_eq]
        rcases hsch : s.schedule with _ | ⟨e, es⟩
        · simp
          omega
        · have := hps e (by rw [hsch]; exact List.mem_cons_self e es)
          simp
          omega
      rcases hr : (srcRead s (n + 1)).1 with _ | ⟨b, bs⟩
      · rw [hr] at hk; simp at hk
      · simp only
        have hlen : (b :: bs).length ≤ n + 1 := by
          rw [← hr]; exact srcRead_le s (n + 1)
        have hdata : (srcRead s (n + 1)).2.data.length =
            s.data.length - (b :: bs).length := by
          have := srcRead_data s (n + 1)
          rw [hr] at this
          have hl := congrArg List.length this
          simp only [List.length_append] at hl
          omega
        have hsched : ∀ e ∈ (srcRead s (n + 1)).2.schedule, 0 < e := by
          intro e he
          apply hps
          have : (srcRead s (n + 1)).2.schedule = s.schedule.tail := by
            unfold srcRead
            simp
          rw [this] at he
          exact List.mem_of_mem_tail he
        have hkpos : 1 ≤ (b :: bs).length := by simp
        exact ih (srcRead s (n + 1)).2 (n + 1 - (b :: bs).length) hsched
          (by omega) (by omega)

/-- On a genuine source, a fill either succeeds with a full range, or it
exhausts the stream entirely. -/
theorem fillBuf_cases (s : Source) (cap : Nat) (hps : ∀ e ∈ s.schedule, 0 < e) :
    ((fillBuf s cap).2.1 = true ∧ (fillBuf s cap).1.length = cap) ∨
    ((fillBuf s cap).2.2.data = [] ∧ (fillBuf s cap).1 = s.data) := by
  by_cases hc : cap ≤ s.data.length
  · left
    have hok := fillGo_full cap s cap hps hc (le_refl cap)
    exact ⟨hok, (fillGo_spec cap s cap (le_refl cap)).2.1.mp hok⟩
  · right
    obtain ⟨h1, h2, h3⟩ := fillBuf_all s cap hps (by omega)
    exact ⟨h3, h1⟩

/-- On an all-ASCII buffer the DP degenerates: every suffix costs zero and
every jump is a single byte. -/
theorem ascii_dp (live : List Nat) (m : Nat) (hM : m < USIZE_MAX)
    (hsafe : ∀ b ∈ live, b < 0x80) :
    ∀ (k i : Nat), m - i ≤ k → i < m → costF live m i = 0 ∧ btF live m i = i + 1 := by
  intro k
  induction k with
  | zero => intro i h1 h2; omega
  | succ k ih =>
    intro i hk him
    have hvalid : validUtf8 (slice live i (i + 1)) = true :=
      validUtf8_all_ascii _ (fun b hb => hsafe b (slice_mem hb))
    have hsc : spanCost live i (i + 1) = 0 := by
      unfold spanCost
      rw [if_pos hvalid]
    have hcnext : costF live m (i + 1) = 0 := by
      rcases Nat.eq_or_lt_of_le (show i + 1 ≤ m from him) with he | hlt
      · rw [he]
        exact costF_at_m live m m (le_refl m)
      · exact (ih (i + 1) (by omega) hlt).1
    have hle := costF_le_cand live m him (Nat.lt_succ_self i) him
    rw [hsc, hcnext] at hle
    have hcost : costF live m i = 0 := by omega
    refine ⟨hcost, ?_⟩
    obtain ⟨h1, h2, h3, h4⟩ := btF_spec live m i him hM
    by_contra hne
    have hgt : i + 1 < btF live m i := by omega
    have := h4 (i + 1) (Nat.lt_succ_self i) hgt
    rw [hsc, hcnext, hcost] at this
    omega

/-- On an all-ASCII buffer the walk takes `min (taken_limit + 1) m` single
bytes, each written; the written spans concatenate to that prefix. -/
theorem walk_ascii (live : List Nat) (m tl : Nat) (hM : m < USIZE_MAX)
    (hsafe : ∀ b ∈ live, b < 0x80) :
    ∀ fuel i, i ≤ min (tl + 1) m → m - i < fuel →
    (walkLoop live m tl (btF live m) (vtF live m) fuel i).1 = min (tl + 1) m ∧
    (walkLoop live m tl (btF live m) (vtF live m) fuel i).2.flatten =
      slice live i (min (tl + 1) m) := by
  intro fuel
  induction fuel with
  | zero => intro i h1 h2; omega
  | succ fuel ih =>
    intro i him hf
    rcases Nat.eq_or_lt_of_le him with he | hlt
    · have hcond : ¬(i ≤ tl ∧ i < m) := by omega
      constructor
      · rw [walkLoop_succ_fst, if_neg hcond, he]
      · rw [walkLoop_succ_snd, if_neg hcond]
        rw [he]
        unfold slice
        rw [Nat.sub_self]
        simp
    · have hcond : i ≤ tl ∧ i < m := by omega
      obtain ⟨hc0, hbt⟩ := ascii_dp live m hM hsafe (m - i) i (le_refl _) hcond.2
      have hvalid : validUtf8 (slice live i (i + 1)) = true :=
        validUtf8_all_ascii _ (fun b hb => hsafe b (slice_mem hb))
      have hvt : vtF live m (tri m i (btF live m i)) = true := by
        rw [hbt, vtF_get live m (Nat.lt_succ_self i) (by omega)]
        exact hvalid
      have hih := ih (i + 1) (by omega) (by omega)
      constructor
      · rw [walkLoop_succ_fst, if_pos hcond, hbt]
        exact hih.1
      · rw [walkLoop_succ_snd, if_pos hcond, if_pos hvt, hbt]
        simp only [List.singleton_append, List.flatten_cons]
        rw [hih.2]
        rw [← slice_split live (Nat.le_succ i) (by omega)]

theorem map_self {α : Type} (f : α → α) : ∀ l : List α,
    (∀ x ∈ l, f x = x) → l.map f = l := by
  intro l
  induction l with
  | nil => intro _; rfl
  | cons a l ih =>
    intro h
    simp only [List.map_cons]
    rw [h a (List.mem_cons_self a l), ih (fun x hx => h x (List.mem_cons_of_mem a hx))]

/-- On an all-ASCII stream the loop emits every byte it consumes, in
order. -/
theorem bfLoop_ascii (bufSize : Nat) (hB0 : 0 < bufSize) (hB : bufSize < USIZE_MAX) :
    ∀ (fuel tl : Nat) (live : List Nat) (src : Source),
    (∀ b ∈ live, b < 0x80) → (∀ b ∈ src.data, b < 0x80) →
    (∀ e ∈ src.schedule, 0 < e) → live.length ≤ bufSize →
    (live = [] → src.data = []) →
    src.data.length + live.length < fuel →
    (bfLoop bufSize fuel tl live src).1.flatten = live ++ src.data := by
  intro fuel
  induction fuel with
  | zero => intro tl live src _ _ _ _ _ hf; omega
  | succ fuel ih =>
    intro tl live src hsl hsd hps hlen hnz hf
    by_cases h0 : live.length = 0
    · have hle : live = [] := List.length_eq_zero.mp h0
      rw [bfLoop_succ, if_pos h0]
      rw [hle, hnz hle]
      rfl
    · rw [bfLoop_succ, if_neg h0]
      simp only
      have hm : live.length < USIZE_MAX := by omega
      have hwalk := walk_ascii live live.length tl hm hsl (live.length + 1) 0
        (by omega) (by omega)
      have htk1 : (takeFromBuffer live live.length tl).1 =
          min (tl + 1) live.length := hwalk.1
      have htk2 : (takeFromBuffer live live.length tl).2.flatten =
          slice live 0 (min (tl + 1) live.length) := hwalk.2
      rw [htk1]
      set t := min (tl + 1) live.length with ht
      have ht1 : 1 ≤ t := by omega
      have htle : t ≤ live.length := by omega
      set carry := live.drop t with hcarry
      set f := fillBuf src (bufSize - carry.length) with hfdef
      have hcl : carry.length = live.length - t := by
        rw [hcarry, List.length_drop]
      have hfdata : f.1 ++ f.2.2.data = src.data := fillGo_data _ src _
      have hflen : f.1.length ≤ bufSize - carry.length := fillBuf_len_le src _
      have hsafem : ∀ b ∈ carry ++ f.1, b < 0x80 := by
        intro b hb
        rcases List.mem_append.mp hb with hb | hb
        · exact hsl b (List.mem_of_mem_drop hb)
        · exact hsd b (by rw [← hfdata]; exact List.mem_append_left _ hb)
      have hsafed : ∀ b ∈ f.2.2.data, b < 0x80 := by
        intro b hb
        exact hsd b (by rw [← hfdata]; exact List.mem_append_right _ hb)
      have hps' : ∀ e ∈ f.2.2.schedule, 0 < e :=
        fun e he => hps e (fillGo_sched _ src _ e he)
      have hnz' : carry ++ f.1 = [] → f.2.2.data = [] := by
        intro he
        rcases fillBuf_cases src (bufSize - carry.length) hps with
          ⟨hok, hflen2⟩ | ⟨hd, _⟩
        · exfalso
          obtain ⟨hce, hfe⟩ := List.append_eq_nil.mp he
          have hcl0 : carry.length = 0 := by rw [hce]; rfl
          rw [hfe, hcl0] at hflen2
          simp only [List.length_nil, Nat.sub_zero] at hflen2
          omega
        · exact hd
      have hlen' : (carry ++ f.1).length ≤ bufSize := by
        rw [List.length_append]
        omega
      have hmeas : f.2.2.data.length + (carry ++ f.1).length < fuel := by
        have hfd := congrArg List.length hfdata
        simp only [List.length_append] at hfd ⊢
        omega
      have hih := ih (if f.2.1 then tl else (carry ++ f.1).length) (carry ++ f.1)
        f.2.2 hsafem hsafed hps' hlen' hnz' hmeas
      rw [List.flatten_append, htk2, hih]
      have hslice0 : slice live 0 t = live.take t := by
        unfold slice
        simp
      rw [hslice0]
      rw [show (carry ++ f.1) ++ f.2.2.data = carry ++ (f.1 ++ f.2.2.data) from by
        simp [List.append_assoc]]
      rw [hfdata, hcarry]
      rw [← List.append_assoc, List.take_append_drop]

/-- The pipeline is the identity on a stream of safe ASCII bytes (the
image of the ASCII-only filter). -/
theorem pipe_ascii_id (bufSize : Nat) (src : Source) (hB0 : 0 < bufSize)
    (hB : bufSize < USIZE_MAX) (hsafe : ∀ b ∈ src.data, asciiKeep b = true)
    (hps : ∀ e ∈ src.schedule, 0 < e) :
    pipeOut bufSize true src = src.data := by
  have hsafe80 : ∀ b ∈ src.data, b < 0x80 := by
    intro b hb
    have := hsafe b hb
    simp only [asciiKeep, decide_eq_true_eq] at this
    omega
  unfold pipeOut
  rw [bufferFilter_eq]
  set f0 := fillBuf src bufSize with hf0
  have hd0 : f0.1 ++ f0.2.2.data = src.data := fillGo_data _ src _
  have hsl : ∀ b ∈ f0.1, b < 0x80 :=
    fun b hb => hsafe80 b (by rw [← hd0]; exact List.mem_append_left _ hb)
  have hsd : ∀ b ∈ f0.2.2.data, b < 0x80 :=
    fun b hb => hsafe80 b (by rw [← hd0]; exact List.mem_append_right _ hb)
  have hps' : ∀ e ∈ f0.2.2.schedule, 0 < e :=
    fun e he => hps e (fillGo_sched _ src _ e he)
  have hnz : f0.1 = [] → f0.2.2.data = [] := by
    intro he
    rcases fillBuf_cases src bufSize hps with ⟨hok, hlen⟩ | ⟨hd, _⟩
    · rw [he] at hlen
      simp only [List.length_nil] at hlen
      omega
    · exact hd
  have hlen0 : f0.1.length ≤ bufSize := fillBuf_len_le src bufSize
  have hflat := bfLoop_ascii bufSize hB0 hB (f0.2.2.data.length + f0.1.length + 1)
    (if f0.2.1 then bufSize / 2 else f0.1.length) f0.1 f0.2.2 hsl hsd hps' hlen0
    hnz (by omega)
  have hsp_safe : ∀ s ∈ (bfLoop bufSize (f0.2.2.data.length + f0.1.length + 1)
      (if f0.2.1 then bufSize / 2 else f0.1.length) f0.1 f0.2.2).1,
      ∀ b ∈ s, asciiKeep b = true := by
    intro s hs b hb
    have hmem : b ∈ (bfLoop bufSize (f0.2.2.data.length + f0.1.length + 1)
        (if f0.2.1 then bufSize / 2 else f0.1.length) f0.1 f0.2.2).1.flatten :=
      List.mem_flatten.mpr ⟨s, hs, hb⟩
    rw [hflat] at hmem
    rcases List.mem_append.mp hmem with h | h
    · exact hsafe b (by rw [← hd0]; exact List.mem_append_left _ h)
    · exact hsafe b (by rw [← hd0]; exact List.mem_append_right _ h)
  have hmapid : (bfLoop bufSize (f0.2.2.data.length + f0.1.length + 1)
      (if f0.2.1 then bufSize / 2 else f0.1.length) f0.1 f0.2.2).1.map
      (filterWrite true) =
      (bfLoop bufSize (f0.2.2.data.length + f0.1.length + 1)
      (if f0.2.1 then bufSize / 2 else f0.1.length) f0.1 f0.2.2).1 := by
    apply map_self
    intro s hs
    rw [show filterWrite true s = filterAscii s from rfl]
    exact filterAscii_id_safe s (hsp_safe s hs)
  rw [hmapid, hflat, hd0]

theorem pipeOut_ascii_safe (bufSize : Nat) (src : Source) :
    ∀ b ∈ pipeOut bufSize true src, asciiKeep b = true := by
  intro b hb
  unfold pipeOut at hb
  simp only [List.mem_flatten, List.mem_map] at hb
  obtain ⟨l, ⟨s, hs, hls⟩, hbl⟩ := hb
  subst hls
  exact filterAscii_keep s.length s (le_refl _) b hbl

/-- Claim C9 counterexample: `buf_size = 6`, `ascii_only = false`, input
`"abc" ++ [0xFF, 0xFF] ++ "𐀀"` (the 4-byte character `F0 90 80 80`).
The first run outputs `"abc" ++ "𐀀"`; feeding that output into a second
run with the same configuration outputs only `"abc"` — the second run's
full first round puts the character's first byte at position `3 = 6/2`,
where it is discarded.  Re-filtering is NOT the identity on the first
run's output. -/
theorem c9_counterexample :
    pipeOut 6 false ⟨[97, 98, 99, 0xFF, 0xFF, 0xF0, 0x90, 0x80, 0x80], []⟩ =
      [97, 98, 99, 0xF0, 0x90, 0x80, 0x80] ∧
    pipeOut 6 false
        ⟨pipeOut 6 false ⟨[97, 98, 99, 0xFF, 0xFF, 0xF0, 0x90, 0x80, 0x80], []⟩, []⟩ =
      [97, 98, 99] ∧
    pipeOut 6 false
        ⟨pipeOut 6 false ⟨[97, 98, 99, 0xFF, 0xFF, 0xF0, 0x90, 0x80, 0x80], []⟩, []⟩ ≠
      pipeOut 6 false ⟨[97, 98, 99, 0xFF, 0xFF, 0xF0, 0x90, 0x80, 0x80], []⟩ :=
  ⟨by decide, by decide, by decide⟩

/-- Claim C9 (amended): in ASCII-only mode the pipeline IS idempotent: for
every positive `buf_size` (below `usize::MAX`), every input source and
every genuine re-chunking of the first run's output, running the filtered
output through a second identically-configured run reproduces it
byte-for-byte.  (With `ascii_only = false` idempotence fails — a multi-byte
character in the first run's output can straddle the second run's
`B/2` boundary and be dropped; see the counterexample.) -/
theorem c9_idempotent_ascii (bufSize : Nat) (src : Source) (sched : List Nat)
    (hB0 : 0 < bufSize) (hB : bufSize < USIZE_MAX) (hps : ∀ e ∈ sched, 0 < e) :
    pipeOut bufSize true ⟨pipeOut bufSize true src, sched⟩ =
      pipeOut bufSize true src :=
  pipe_ascii_id bufSize ⟨pipeOut bufSize true src, sched⟩ hB0 hB
    (fun b hb => pipeOut_ascii_safe bufSize src b hb) hps

theorem c9_idempotent_ascii_witness :
    (0 < 4 ∧ 4 < USIZE_MAX ∧ (∀ e ∈ ([] : List Nat), 0 < e)) ∧
    pipeOut 4 true ⟨pipeOut 4 true ⟨[97, 0xE4, 0xBD, 0xA0, 98, 7], []⟩, []⟩ =
      pipeOut 4 true ⟨[97, 0xE4, 0xBD, 0xA0, 98, 7], []⟩ :=
  ⟨⟨by decide, by decide, by decide⟩,
   c9_idempotent_ascii 4 ⟨[97, 0xE4, 0xBD, 0xA0, 98, 7], []⟩ []
     (by decide) (by decide) (by decide)⟩

end AsciiFilter
